import Mathlib

/-!
The struct tag generator graffiti (package `tags`, file `tags/generate.go`).

A shallow embedding of the tag generator.  Go strings that hold names and tag
texts are Lean `String`s (always valid UTF-8, as the identifiers and literals
of a parsed Go file are); the raw file content `src`, which the code only
slices by byte offsets, is a list of bytes.  A Go run-time panic is the value
`none` of an `Option` result; a returned `error` is a `String`.

The Unicode tables of the Go standard library (`unicode.IsLower`, ...,
`strconv.IsPrint`) are not part of the repository: every definition takes them
as the parameter `U : Unicode`, and `Unicode.ascii` gives their values on the
ASCII range for evaluating concrete inputs.
-/

set_option autoImplicit false

deriving instance DecidableEq for Except

namespace Graffiti

/-! ## Standard library and dependencies -/

/-- The character tables of Go's `unicode` and `strconv` packages that the code
consults, taken as a parameter. -/
structure Unicode where
  /-- Table `unicode.IsLower`. -/
  IsLower : Char → Bool
  /-- Table `unicode.IsUpper`. -/
  IsUpper : Char → Bool
  /-- Table `unicode.IsDigit`. -/
  IsDigit : Char → Bool
  /-- Table `unicode.ToLower`. -/
  ToLower : Char → Char
  /-- Table `strconv.IsPrint`. -/
  IsPrint : Char → Bool

/-- The tables restricted to ASCII: on U+0000..U+007F they agree with Go's;
characters outside ASCII are left unclassified. -/
def Unicode.ascii : Unicode where
  IsLower := fun c => decide (97 ≤ c.toNat ∧ c.toNat ≤ 122)
  IsUpper := fun c => decide (65 ≤ c.toNat ∧ c.toNat ≤ 90)
  IsDigit := fun c => decide (48 ≤ c.toNat ∧ c.toNat ≤ 57)
  ToLower := fun c => if 65 ≤ c.toNat ∧ c.toNat ≤ 90 then Char.ofNat (c.toNat + 32) else c
  IsPrint := fun c => decide (32 ≤ c.toNat ∧ c.toNat ≤ 126)

namespace strings

/-- Go `strings.Join(elems, sep)`. -/
def Join (elems : List String) (sep : String) : String :=
  sep.intercalate elems

/-- Go `strings.ToLower(s)`: every rune mapped through `unicode.ToLower`. -/
def ToLower (U : Unicode) (s : String) : String :=
  String.mk (s.data.map U.ToLower)

end strings

namespace strconv

/-- Digit `d < 16` of Go's `lowerhex` table. -/
def lowerhex (d : Nat) : Char :=
  if d < 10 then Char.ofNat (48 + d) else Char.ofNat (87 + d)

/-- The `n` lowest hexadecimal digits of `r`, most significant first. -/
def hexDigits (r : Nat) : Nat → List Char
  | 0 => []
  | n + 1 => lowerhex (r / 16 ^ n % 16) :: hexDigits r n

/-- Go `strconv.appendEscapedRune` with `quote = '"'`, `ASCIIonly = false`,
`graphicOnly = false`: the text one rune contributes to a quoted string. -/
def escapedRune (U : Unicode) (r : Char) : List Char :=
  if r.toNat = 34 ∨ r.toNat = 92 then [Char.ofNat 92, r]
  else if U.IsPrint r then [r]
  else if r.toNat = 7 then [Char.ofNat 92, 'a']
  else if r.toNat = 8 then [Char.ofNat 92, 'b']
  else if r.toNat = 12 then [Char.ofNat 92, 'f']
  else if r.toNat = 10 then [Char.ofNat 92, 'n']
  else if r.toNat = 13 then [Char.ofNat 92, 'r']
  else if r.toNat = 9 then [Char.ofNat 92, 't']
  else if r.toNat = 11 then [Char.ofNat 92, 'v']
  else if r.toNat < 32 ∨ r.toNat = 127 then Char.ofNat 92 :: 'x' :: hexDigits r.toNat 2
  else if r.toNat < 65536 then Char.ofNat 92 :: 'u' :: hexDigits r.toNat 4
  else Char.ofNat 92 :: 'U' :: hexDigits r.toNat 8

/-- Go `strconv.Quote(s)`, which is what the verb `%q` of `fmt.Sprintf` prints
for a string: `s` between double quotes, escaped with Go syntax. -/
def Quote (U : Unicode) (s : String) : String :=
  String.mk (Char.ofNat 34 :: (s.data.flatMap (escapedRune U) ++ [Char.ofNat 34]))

end strconv

namespace camelcase

/-- Character class of `camelcase.Split`: 1 lower, 2 upper, 3 digit, 4 other. -/
def runeClass (U : Unicode) (r : Char) : Nat :=
  if U.IsLower r then 1 else if U.IsUpper r then 2 else if U.IsDigit r then 3 else 4

/-- Append `r` to the last run: `runes[len(runes)-1] = append(runes[len(runes)-1], r)`. -/
def appendToLast : List (List Char) → Char → List (List Char)
  | [], r => [[r]]
  | [run], r => [run ++ [r]]
  | run :: rest, r => run :: appendToLast rest r

/-- First loop of `Split`: cut the runes into maximal runs of one class. -/
def classRuns (U : Unicode) : List Char → Nat → List (List Char) → List (List Char)
  | [], _, runes => runes
  | r :: rs, lastClass, runes =>
    if runeClass U r = lastClass then classRuns U rs (runeClass U r) (appendToLast runes r)
    else classRuns U rs (runeClass U r) (runes ++ [[r]])

/-- Second loop of `Split`, at index `i` with `cur = runes[i]` and `rest` the
runs after it: when `cur` starts upper case and the next run starts lower case,
the last rune of `cur` moves to the front of the next run. -/
def shiftUpper (U : Unicode) : List Char → List (List Char) → List (List Char)
  | cur, [] => [cur]
  | cur, nxt :: rest =>
    match cur.head?, nxt.head? with
    | some a, some b =>
      if U.IsUpper a && U.IsLower b then
        cur.dropLast :: shiftUpper U (cur.getLast?.toList ++ nxt) rest
      else cur :: shiftUpper U nxt rest
    | _, _ => cur :: shiftUpper U nxt rest

/-- Modelled from the spec: `camelcase.Split` of the dependency
github.com/fatih/camelcase, whose source is not in the repository.  The spec
describes it as casing-boundary detection (uppercase-run / digit-run /
lowercase-run transitions, `ExDivDate` giving `Ex`, `Div`, `Date` and `ID`
one run); the definition follows the library's three loops: runs of one
character class, the last upper-case rune of a run moved to a following
lower-case run, empty runs dropped.  The empty string has no word.  (The
library returns a string that is not valid UTF-8 unsplit; a `String` always is
valid.) -/
def Split (U : Unicode) (src : String) : List String :=
  let runes := classRuns U src.data 0 []
  let runes := match runes with
    | [] => []
    | cur :: rest => shiftUpper U cur rest
  (runes.filter (fun s => decide (0 < s.length))).map String.mk

end camelcase

/-- Function `toCamelCase` (generate.go:287-291).  `none` is the index-out-of-range
panic of `ns[0]` on an empty split. -/
def toCamelCase (U : Unicode) (s : String) : Option String :=
  match camelcase.Split U s with
  | [] => none
  | w :: ns => some (strings.Join (strings.ToLower U w :: ns) "")

/-! ## Data model -/

/-- Type `Options` (generate.go:22-37).  `Template` is the nil-able pointer to a
`text/template` template; a template is the function from the value of its
variable `F` to the rendered text or the render error.  `Mapping` is the map
lookup `m, ok := Mapping[name]`. -/
structure Options where
  Target : String
  Tags : List String
  Template : Option (String → Except String String)
  Mapping : String → Option String
  Types : List String
  DryRun : Bool
  Typescript : Bool

/-- Node `ast.BasicLit`, of which the code reads and writes only `Value`. -/
structure BasicLit where
  Value : String
  deriving DecidableEq, Repr

/-- An expression node `ast.Expr`, of which the code uses only `Pos()` and `End()`. -/
structure Expr where
  Pos : Int
  End : Int
  deriving DecidableEq, Repr

/-- Node `ast.Field`: a field group of a struct.  `Typ` is the Go field `Type`;
`Tag` is `none` for the nil pointer. -/
structure Field where
  Names : List String
  Typ : Expr
  Tag : Option BasicLit
  deriving DecidableEq, Repr

/-- The `Type` of an `ast.TypeSpec`: an `*ast.StructType` with its `Fields.List`,
or any other type expression. -/
inductive TypeExpr where
  | StructType (Fields : List Field)
  | other
  deriving DecidableEq, Repr

/-- Node `ast.TypeSpec`. -/
structure TypeSpec where
  Name : String
  Typ : TypeExpr
  deriving DecidableEq, Repr

/-- The syntax tree handed to `ast.Walk`, as the sequence of its `*ast.TypeSpec`
nodes in the depth-first order in which `ast.Walk` visits them.  On every other
node, and on the `nil` that ends a node's children, `Visit` changes nothing; it
returns `nil` (which prunes the node's children) only once `v.err` is set, after
which every later call changes nothing either. -/
abbrev File := List TypeSpec

/-- Type `structFieldDef` (generate.go:165-168). -/
structure structFieldDef where
  Name : String
  FieldType : List UInt8
  deriving DecidableEq, Repr

/-- Type `structDef` (generate.go:169-172). -/
structure structDef where
  Name : String
  Fields : List structFieldDef
  deriving DecidableEq, Repr

/-- Type `visitor` (generate.go:177-186); `err = none` is the nil error. -/
structure visitor extends Options where
  changed : Bool
  err : Option String
  src : List UInt8
  structs : List structDef

namespace ast

/-- Go `ast.IsExported(name)`: the first rune is upper case (of the empty name
the first rune is U+FFFD, which is not). -/
def IsExported (U : Unicode) (name : String) : Bool :=
  match name.data with
  | [] => false
  | ch :: _ => U.IsUpper ch

end ast

/-- The Go slice expression `s[lo:hi]` of a string; `none` is the
slice-bounds-out-of-range panic. -/
def sliceString (s : List UInt8) (lo hi : Int) : Option (List UInt8) :=
  if 0 ≤ lo ∧ lo ≤ hi ∧ hi ≤ (s.length : Int) then
    some ((s.drop lo.toNat).take (hi.toNat - lo.toNat))
  else none

/-! ## Operations -/

/-- Method `visitor.shouldGen` (generate.go:250-260). -/
def visitor.shouldGen (v : visitor) (name : String) : Bool :=
  if v.Types.length = 0 then true
  else v.Types.any (fun typ => decide (typ = name))

/-- The loop `for i, t := range v.Tags { vals[i] = fmt.Sprintf("%s:%q", t, name) }`
(generate.go:272-274), at index `i` with the tags still to come. -/
def visitor.genVals (U : Unicode) (name : String) :
    List String → Nat → List String → List String
  | [], _, vals => vals
  | t :: ts, i, vals =>
    visitor.genVals U name ts (i + 1) (vals.set i (t ++ ":" ++ strconv.Quote U name))

/-- Lines 265-269 of `visitor.gen`: the name that goes into the tag.  `none` is
the panic of `toCamelCase`. -/
def visitor.convertedName (U : Unicode) (v : visitor) (name : String) : Option String :=
  match v.Mapping name with
  | some m => some m
  | none => toCamelCase U name

/-- Lines 270-284 of `visitor.gen`: the tag text for the converted name.
`none` is a panic (`Execute` on the nil template), `some (.error e)` the pair
`("", e)`, `some (.ok val)` the pair `(val, nil)`. -/
def visitor.compose (U : Unicode) (v : visitor) (name : String) : Option (Except String String) :=
  if v.Tags.length > 0 then
    let vals := visitor.genVals U name v.Tags 0 (List.replicate v.Tags.length "")
    some (.ok ("`" ++ strings.Join vals " " ++ "`"))
  else
    match v.Template with
    | none => none
    | some t =>
      match t name with
      | .error e => some (.error e)
      | .ok buf => some (.ok ("`" ++ buf ++ "`"))

/-- Method `visitor.gen` (generate.go:264-285). -/
def visitor.gen (U : Unicode) (v : visitor) (name : String) : Option (Except String String) :=
  match v.convertedName U name with
  | none => none
  | some n => v.compose U n

/-- The result of the loop over the fields that follow `f`, with `f` put back
in front of the field list. -/
def visitor.withField (f : Field) (r : visitor × structDef × List Field × Bool) :
    visitor × structDef × List Field × Bool :=
  (r.1, r.2.1, f :: r.2.2.1, r.2.2.2)

/-- The expression `f.Names[0].Name`, which the code reads only when the group
has exactly one name. -/
def Field.name (f : Field) : String :=
  f.Names.headD ""

/-- The tag node of `f` after `if f.Tag == nil { f.Tag = &ast.BasicLit{} }`
(generate.go:216-218). -/
def Field.tagNode (f : Field) : BasicLit :=
  match f.Tag with
  | none => { Value := "" }
  | some lit => lit

/-- The loop over `s.Fields.List` in `visitor.Visit` (generate.go:203-239).  The
result is `none` on a panic; otherwise the visitor, the struct descriptor `sd`,
the field list as mutated, and whether the loop ran to its end (`false`: it left
`Visit` through `return nil` at line 222). -/
def visitor.visitFields (U : Unicode) :
    visitor → structDef → List Field → Option (visitor × structDef × List Field × Bool)
  | v, sd, [] => some (v, sd, [], true)
  | v, sd, f :: fs =>
    let l := f.Names.length
    if l > 1 ∨ l ≤ 0 then
      (visitor.visitFields U v sd fs).map (visitor.withField f)
    else
      let name := f.name
      if !ast.IsExported U name then
        (visitor.visitFields U v sd fs).map (visitor.withField f)
      else
        let tag := f.tagNode
        match v.gen U name with
        | none => none
        | some (.error err) =>
          some ({ v with err := some err }, sd, { f with Tag := some tag } :: fs, false)
        | some (.ok val) =>
          match toCamelCase U name, sliceString v.src (f.Typ.Pos - 1) (f.Typ.End - 1) with
          | some cname, some ftype =>
            let sfd : structFieldDef := { Name := cname, FieldType := ftype }
            (visitor.visitFields U { v with changed := true }
              { sd with Fields := sd.Fields ++ [sfd] } fs).map
              (visitor.withField { f with Tag := some { tag with Value := val } })
          | _, _ => none

/-- Method `visitor.Visit` (generate.go:189-246) on an `*ast.TypeSpec` node: the
visitor and the node after the call, `none` on a panic. -/
def visitor.Visit (U : Unicode) (v : visitor) (t : TypeSpec) : Option (visitor × TypeSpec) :=
  if v.err.isSome then some (v, t)
  else
    match t.Typ with
    | .other => some (v, t)
    | .StructType fields =>
      if !v.shouldGen t.Name then some (v, t)
      else
        match v.visitFields U { Name := t.Name, Fields := [] } fields with
        | none => none
        | some (v, sd, fields, finished) =>
          if finished then
            some ({ v with structs := v.structs ++ [sd] }, { t with Typ := .StructType fields })
          else some (v, { t with Typ := .StructType fields })

/-- Call `ast.Walk(v, n)`: `Visit` on every type declaration in turn. -/
def Walk (U : Unicode) : visitor → File → Option (visitor × File)
  | v, [] => some (v, [])
  | v, t :: ts =>
    match v.Visit U t with
    | none => none
    | some (v, t) => (Walk U v ts).map (fun r => (r.1, t :: r.2))

/-- The visitor that `walkAST` starts from: `&visitor{Options: o, src: string(raw)}`. -/
def visitor.new (o : Options) (raw : List UInt8) : visitor :=
  { o with changed := false, err := none, src := raw, structs := [] }

/-- Function `walkAST` (generate.go:106-116): the returned pair
`(*visitor, error)` and the tree as the walk left it; `none` on a panic. -/
def walkAST (U : Unicode) (o : Options) (n : File) (raw : List UInt8) :
    Option ((Option visitor × Option String) × File) :=
  match Walk U (visitor.new o raw) n with
  | none => none
  | some (v, n) =>
    match v.err with
    | some err => some ((none, some err), n)
    | none => if !v.changed then some ((none, none), n) else some ((some v, none), n)


/-- The UTF-8 bytes of a string: the Go conversion `[]byte(s)`. -/
def utf8 (s : String) : List UInt8 :=
  s.data.flatMap String.utf8EncodeChar

/-- The target type that the template of `genTS` (generate.go:146-150) prints
for a field type. -/
def tsType (fieldType : List UInt8) : String :=
  if fieldType ∈ ["float", "float32", "float64", "int", "uint", "int32", "uint32",
      "int64", "uint64"].map utf8 then "number"
  else if fieldType = utf8 "time.Time" then "Date"
  else if fieldType = utf8 "bool" then "boolean"
  else if fieldType = utf8 "string" then "string"
  else "any"

/-- The text that the template of `genTS` (generate.go:144-152) renders for
one struct. -/
def tsClass (s : structDef) : String :=
  "\nexport class " ++ s.Name ++ " \x7b\n"
    ++ String.join (s.Fields.map (fun e => "\t" ++ e.Name ++ ":" ++ tsType e.FieldType ++ ";\n"))
    ++ "\x7d\n"

/-- Function `genTS` (generate.go:141-163): the bytes of the buffer after the
template has been executed on every struct.  `Execute` cannot fail here: the
template reads the fields `Name`, `Fields` and `FieldType` of a `structDef` and
compares strings. -/
def genTS (structs : List structDef) : String :=
  String.join (structs.map tsClass)

/-- The collaborators of `genfile` outside the package, for one run. -/
structure Env where
  /-- Call `parser.ParseFile(fset, file, nil, parser.ParseComments)`. -/
  ParseFile : String → Except String File
  /-- Call `ioutil.ReadFile(file)`. -/
  ReadFile : String → Except String (List UInt8)
  /-- Call `c.Fprint(buf, fset, n)` of the raw-format printer: the buffer or the error. -/
  Fprint : File → Except String String
  /-- Call `format.Source(buf.Bytes())`; `none` is the nil slice. -/
  Source : String → Except String (Option String)
  /-- The error returned by a `fmt.Printf` of the given text. -/
  Printf : String → Option String
  /-- The error returned by `ioutil.WriteFile(name, data, 0644)`. -/
  WriteFile : String → String → Option String

/-- What a run of `genfile` does, in the order it does it. -/
inductive Effect where
  /-- Text written to standard output. -/
  | Stdout (text : String)
  /-- The re-serializer `gen` was called. -/
  | Gen
  /-- A call of `ioutil.WriteFile`. -/
  | WriteFile (name : String) (data : String)
  deriving DecidableEq, Repr

/-- Function `gen` (generate.go:119-139), the re-serializer; it does not use `v`. -/
def gen (E : Env) (_v : Option visitor) (n : File) : Except String (Option String) :=
  match E.Fprint n with
  | .error err => .error ("error printing output: " ++ err)
  | .ok buf =>
    match E.Source buf with
    | .error err => .error err
    | .ok b => .ok b

/-- Lines 86-104 of `genfile`: what follows the test `b == nil`.  `v` is the
pointer returned by `walkAST` (`none`: nil), `b` the re-serialized file. -/
def genfileOutput (E : Env) (o : Options) (file : String) (v : Option visitor) (b : String) :
    List Effect × Option (Option String) :=
  let tsb : Option (List Effect × String) :=
    if o.Typescript then
      match v with
      | none => none
      | some v => some ([Effect.Stdout "generating typescript...\n"], genTS v.structs)
    else some ([], "")
  match tsb with
  | none => ([], none)
  | some (out, tsb) =>
    if o.DryRun then
      (out ++ [Effect.Stdout (b ++ "\n"), Effect.Stdout (tsb ++ "\n")],
        some (E.Printf (tsb ++ "\n")))
    else
      match E.WriteFile file b with
      | some err => (out ++ [Effect.WriteFile file b], some (some err))
      | none =>
        if o.Typescript then
          (out ++ [Effect.WriteFile file b, Effect.WriteFile (file ++ ".ts") tsb],
            some (E.WriteFile (file ++ ".ts") tsb))
        else (out ++ [Effect.WriteFile file b], some none)

/-- Function `genfile` (generate.go:62-104): the effects of the run and its
result, `none` for a panic and `some err` for the returned error (`some none`:
nil). -/
def genfile (U : Unicode) (E : Env) (o : Options) (file : String) :
    List Effect × Option (Option String) :=
  let out := [Effect.Stdout ("gen file " ++ file ++ "\n")]
  match E.ParseFile file with
  | .error err => (out, some (some err))
  | .ok n =>
    match E.ReadFile file with
    | .error err => (out, some (some err))
    | .ok c =>
      match walkAST U o n c with
      | none => (out, none)
      | some ((_, some err), _) => (out, some (some err))
      | some ((v, none), n) =>
        match gen E v n with
        | .error err => (out ++ [Effect.Gen], some (some err))
        | .ok none => (out ++ [Effect.Gen, Effect.Stdout "nil bytes\n"], some none)
        | .ok (some b) =>
          let r := genfileOutput E o file v b
          (out ++ [Effect.Gen] ++ r.1, r.2)

/-! ## Vocabulary of the specification -/

/-- An eligible field: a field group with exactly one name, which is exported. -/
def Field.eligible (U : Unicode) (f : Field) : Bool :=
  decide (f.Names.length = 1) && ast.IsExported U f.name

/-- The tag text of a field: the `Value` of its tag, empty when it has no tag. -/
def Field.tagText (f : Field) : String :=
  match f.Tag with
  | none => ""
  | some lit => lit.Value

/-- The fields of a type declaration: those of a struct, none of any other type. -/
def TypeSpec.fields (t : TypeSpec) : List Field :=
  match t.Typ with
  | .StructType fs => fs
  | .other => []

/-- A struct declaration whose fields the walk processes: one that passes the
type filter. -/
def visitor.selects (v : visitor) (t : TypeSpec) : Bool :=
  match t.Typ with
  | .StructType _ => v.shouldGen t.Name
  | .other => false

/-- The tag texts of all fields of the tree, in traversal order. -/
def tagTexts (n : File) : List String :=
  (n.flatMap TypeSpec.fields).map Field.tagText

/-- The field list with the group `g` put in at position `k`. -/
def insertGroup (k : Nat) (g : Field) (fs : List Field) : List Field :=
  fs.take k ++ g :: fs.drop k

/-- The type declaration with the group `g` put into its struct at position `k`. -/
def TypeSpec.insertGroup (k : Nat) (g : Field) (t : TypeSpec) : TypeSpec :=
  match t.Typ with
  | .StructType fs => { t with Typ := .StructType (Graffiti.insertGroup k g fs) }
  | .other => t

/-- What a walk that ends without error leaves of a field `f` of a selected
struct: an eligible field carries exactly the tag composed for its name,
whatever its tag was, and any other field is as it was. -/
def visitor.Tagged (U : Unicode) (v : visitor) (f f' : Field) : Prop :=
  if f.eligible U = true then
    ∃ val, v.gen U f.name = some (.ok val) ∧ f' = { f with Tag := some { Value := val } }
  else f' = f

/-- What a walk that ends without error leaves of a type declaration: a
selected struct has its fields tagged, any other declaration is as it was. -/
def visitor.TaggedSpec (U : Unicode) (v : visitor) (t t' : TypeSpec) : Prop :=
  if v.selects t = true then
    ∃ fs', t' = { t with Typ := .StructType fs' } ∧ List.Forall₂ (v.Tagged U) t.fields fs'
  else t' = t

/-- A struct that the walk selects and that has an eligible field. -/
def visitor.hasTarget (U : Unicode) (v : visitor) (t : TypeSpec) : Bool :=
  v.selects t && t.fields.any (Field.eligible U)

/-- The field descriptor `d` that the walk records for the eligible field `f`:
its name is `toCamelCase` of the field name, its type text the slice of the
source between the positions of the type expression. -/
def visitor.Describes (U : Unicode) (v : visitor) (f : Field) (d : structFieldDef) : Prop :=
  toCamelCase U f.name = some d.Name
    ∧ sliceString v.src (f.Typ.Pos - 1) (f.Typ.End - 1) = some d.FieldType

/-- The struct descriptor `sd` that the walk records for the struct `t`: the
name of the struct and one field descriptor for each eligible field, in the
order of the fields. -/
def visitor.DescribesSpec (U : Unicode) (v : visitor) (t : TypeSpec) (sd : structDef) : Prop :=
  sd.Name = t.Name
    ∧ List.Forall₂ (v.Describes U) (t.fields.filter (Field.eligible U)) sd.Fields

/-! ## Concrete inputs

The configurations and trees of the tests in `generate_test.go`, and variations
of them. -/

namespace Example

/-- Options of `TestGenBasic` and `TestEmbedStruct`: `Tags: json, yaml`. -/
def optsBasic : Options :=
  { Target := "foo.go", Tags := ["json", "yaml"], Template := none, Mapping := fun _ => none,
    Types := [], DryRun := false, Typescript := false }

/-- Options of `TestGenMap`: `ID` mapped to `_id`, `Name` to `title`. -/
def optsMap : Options :=
  { optsBasic with
    Mapping := fun k => if k = "ID" then some "_id" else if k = "Name" then some "title" else none }

/-- The visitor that starts a walk with `optsMap`. -/
def startMap : visitor :=
  visitor.new optsMap []

/-- Options of `TestGenType`: `Tags: json`, `Types: bar`. -/
def optsType : Options :=
  { optsBasic with Tags := ["json"], Types := ["bar"] }

/-- The source text of `TestGenBasic`. -/
def srcBasic : List UInt8 :=
  utf8 ("package foo\n\ntype bar struct \x7b\n\tID      string\n\tName    string\n"
    ++ "\tprivate string\n\x7d\n")

/-- The visitor that starts the walk of `TestGenBasic`. -/
def startBasic : visitor :=
  visitor.new optsBasic srcBasic

/-- The field `ID string` of `TestGenBasic`. -/
def fieldID : Field :=
  { Names := ["ID"], Typ := { Pos := 41, End := 47 }, Tag := none }

/-- The field `Name string` of `TestGenBasic`. -/
def fieldName : Field :=
  { Names := ["Name"], Typ := { Pos := 57, End := 63 }, Tag := none }

/-- The field `private string` of `TestGenBasic`. -/
def fieldPrivate : Field :=
  { Names := ["private"], Typ := { Pos := 73, End := 79 }, Tag := none }

/-- The tree of `TestGenBasic`: struct `bar` with `ID`, `Name` and `private`. -/
def treeBasic : File :=
  [{ Name := "bar", Typ := .StructType ([fieldID, fieldName] ++ [fieldPrivate]) }]

/-- The tree of `TestGenBasic` after the walk with `optsBasic`. -/
def treeBasicTagged : File :=
  [{ Name := "bar", Typ := .StructType
      [{ fieldID with Tag := some { Value := "`json:\"id\" yaml:\"id\"`" } },
       { fieldName with Tag := some { Value := "`json:\"name\" yaml:\"name\"`" } },
       fieldPrivate] }]

/-- The visitor after the walk of `treeBasic` with `optsBasic`. -/
def visitorBasic : visitor :=
  { toOptions := optsBasic, changed := true, err := none, src := srcBasic,
    structs := [{ Name := "bar", Fields := [{ Name := "id", FieldType := utf8 "string" },
      { Name := "name", FieldType := utf8 "string" }] }] }

/-- Options with a template and no tag list; the template renders `foo:"F"` and
fails on the name `name`. -/
def optsFailing : Options :=
  { optsBasic with
    Tags := []
    Template := some (fun F =>
      if F = "name" then .error "template: render error" else .ok ("foo:\"" ++ F ++ "\"")) }

/-- The source text of `TestGenBasic` followed by a struct `not` with a field `ID`. -/
def srcTwo : List UInt8 :=
  srcBasic ++ utf8 "\ntype not struct \x7b\n\tID string\n\x7d\n"

/-- The visitor that starts a walk of `srcTwo` with `optsFailing`. -/
def startFailing : visitor :=
  visitor.new optsFailing srcTwo

/-- The struct `not` of `srcTwo`. -/
def structNot : TypeSpec :=
  { Name := "not", Typ := .StructType
      [{ Names := ["ID"], Typ := { Pos := 105, End := 111 }, Tag := none }] }

/-- The visitor after the walk with `optsFailing` of the struct `bar` cut after
its field `ID`. -/
def visitorFailing : visitor :=
  { toOptions := optsFailing, changed := true, err := none, src := srcTwo,
    structs := [{ Name := "bar", Fields := [{ Name := "id", FieldType := utf8 "string" }] }] }

/-- The text of a file `foo.go` whose only struct has the one field
`private string`. -/
def textPrivate : String :=
  "package foo\n\ntype bar struct \x7b\n\tprivate string\n\x7d\n"

/-- The tree of `textPrivate`. -/
def treePrivate : File :=
  [{ Name := "bar", Typ := .StructType
      [{ Names := ["private"], Typ := { Pos := 41, End := 47 }, Tag := none }] }]

/-- The file `foo.go` with the text `textPrivate`, and collaborators that never
fail: the printer and the formatter give back the text of the file. -/
def envPrivate : Env :=
  { ParseFile := fun _ => .ok treePrivate
    ReadFile := fun _ => .ok (utf8 textPrivate)
    Fprint := fun _ => .ok textPrivate
    Source := fun buf => .ok (some buf)
    Printf := fun _ => none
    WriteFile := fun _ _ => none }

/-- The struct `bar` of `TestGenBasic` cut after its field `ID`. -/
def treeCut : File :=
  [{ Name := "bar", Typ := .StructType [fieldID] }]

/-- The tree `treeCut` after the walk with `optsFailing`. -/
def treeCutTagged : File :=
  [{ Name := "bar", Typ := .StructType [{ fieldID with Tag := some { Value := "`foo:\"id\"`" } }] }]

/-- The source text of `TestGenType`. -/
def srcType : List UInt8 :=
  utf8 ("package foo\n\ntype bar struct \x7b\n\tID string\n\x7d\n\n"
    ++ "type not struct \x7b\n\tID string\n\x7d\n")

/-- The tree of `TestGenType`: structs `bar` and `not`, each with a field `ID`. -/
def treeType : File :=
  [{ Name := "bar", Typ := .StructType
      [{ Names := ["ID"], Typ := { Pos := 36, End := 42 }, Tag := none }] },
   { Name := "not", Typ := .StructType
      [{ Names := ["ID"], Typ := { Pos := 68, End := 74 }, Tag := none }] }]

/-- The tree of `TestGenType` after the walk with `optsType`. -/
def treeTypeTagged : File :=
  [{ Name := "bar", Typ := .StructType
      [{ Names := ["ID"], Typ := { Pos := 36, End := 42 },
         Tag := some { Value := "`json:\"id\"`" } }] },
   { Name := "not", Typ := .StructType
      [{ Names := ["ID"], Typ := { Pos := 68, End := 74 }, Tag := none }] }]

/-- The visitor after the walk of `treeType` with `optsType`. -/
def visitorType : visitor :=
  { toOptions := optsType, changed := true, err := none, src := srcType,
    structs := [{ Name := "bar", Fields := [{ Name := "id", FieldType := utf8 "string" }] }] }

/-- The template of `TestGenFormat`: `foo:"F" bar:"F"` for the variable `F`. -/
def templateFormat : String → Except String String :=
  fun F => .ok ("foo:\"" ++ F ++ "\" bar:\"" ++ F ++ "\"")

/-- Options of `TestGenFormat`: no tag list, the template `templateFormat`. -/
def optsFormat : Options :=
  { optsBasic with Tags := [], Template := some templateFormat }

/-- A template whose render always fails. -/
def templateBroken : String → Except String String :=
  fun _ => .error "template: render error"

/-- The tree of `TestGenBasic` after the walk with `optsMap` (`TestGenMap`). -/
def treeMapTagged : File :=
  [{ Name := "bar", Typ := .StructType
      [{ fieldID with Tag := some { Value := "`json:\"_id\" yaml:\"_id\"`" } },
       { fieldName with Tag := some { Value := "`json:\"title\" yaml:\"title\"`" } },
       fieldPrivate] }]

/-- The struct descriptors collected by the walk of `TestGenBasic`. -/
def structsBasic : List structDef :=
  [{ Name := "bar", Fields := [{ Name := "id", FieldType := utf8 "string" },
      { Name := "name", FieldType := utf8 "string" }] }]

/-- A struct descriptor with fields of the types `int8`, `uint16`, `float64`,
`time.Time`, `bool`, `string` and `[]byte`. -/
def structTypes : structDef :=
  { Name := "bar", Fields :=
      [{ Name := "a", FieldType := utf8 "int8" }, { Name := "b", FieldType := utf8 "uint16" },
       { Name := "c", FieldType := utf8 "float64" }, { Name := "d", FieldType := utf8 "time.Time" },
       { Name := "e", FieldType := utf8 "bool" }, { Name := "f", FieldType := utf8 "string" },
       { Name := "g", FieldType := utf8 "[]byte" }] }

/-- The text that `TestGenBasic` expects from the re-serializer. -/
def textBasicTagged : String :=
  "package foo\n\ntype bar struct \x7b\n\tID      string `json:\"id\" yaml:\"id\"`\n"
    ++ "\tName    string `json:\"name\" yaml:\"name\"`\n\tprivate string\n\x7d\n"

/-- The file `foo.go` of `TestGenBasic`, and collaborators that never fail: the
printer and the formatter give the text that the test expects. -/
def envBasic : Env :=
  { ParseFile := fun _ => .ok treeBasic
    ReadFile := fun _ => .ok srcBasic
    Fprint := fun _ => .ok textBasicTagged
    Source := fun buf => .ok (some buf)
    Printf := fun _ => none
    WriteFile := fun _ _ => none }

/-- Options of `TestGenBasic` with `DryRun` and `Typescript` set. -/
def optsDry : Options :=
  { optsBasic with DryRun := true, Typescript := true }

end Example

/-! ## Lemmas on strings and on the word split -/

theorem data_join (l : List String) : (String.join l).data = (l.map String.data).flatten := by
  have h : ∀ (l : List String) (acc : String),
      (l.foldl (fun r s => r ++ s) acc).data = acc.data ++ (l.map String.data).flatten := by
    intro l
    induction l with
    | nil => intro acc; simp
    | cons a l ih => intro acc; simp [ih, String.data_append, List.append_assoc]
  simpa [String.join] using h l ""

theorem intercalate_go_empty (l : List String) (acc : String) :
    String.intercalate.go acc "" l = acc ++ String.join l := by
  induction l generalizing acc with
  | nil => apply String.ext; simp [String.intercalate.go, data_join]
  | cons a l ih =>
    rw [String.intercalate.go, ih]
    apply String.ext
    simp [String.data_append, data_join, List.append_assoc]

theorem Join_empty_cons (a : String) (l : List String) :
    strings.Join (a :: l) "" = a ++ String.join l := by
  simp [strings.Join, String.intercalate, intercalate_go_empty]

theorem set_length_append {α : Type} (pre : List α) (p x : α) (post : List α) :
    (pre ++ p :: post).set pre.length x = pre ++ x :: post := by
  induction pre with
  | nil => rfl
  | cons a pre ih => simp [ih]

theorem genVals_append (U : Unicode) (name : String) (ts pre post : List String)
    (h : post.length = ts.length) :
    visitor.genVals U name ts pre.length (pre ++ post)
      = pre ++ ts.map (fun t => t ++ ":" ++ strconv.Quote U name) := by
  induction ts generalizing pre post with
  | nil =>
    cases post with
    | nil => simp [visitor.genVals]
    | cons p post => simp at h
  | cons t ts ih =>
    cases post with
    | nil => simp at h
    | cons p post =>
      have hl : post.length = ts.length := by simpa using h
      have := ih (pre ++ [t ++ ":" ++ strconv.Quote U name]) post hl
      simp only [List.length_append, List.length_singleton, List.append_assoc,
        List.singleton_append] at this
      simp only [visitor.genVals, set_length_append, List.map_cons]
      exact this

theorem genVals_eq_map (U : Unicode) (name : String) (ts : List String) :
    visitor.genVals U name ts 0 (List.replicate ts.length "")
      = ts.map (fun t => t ++ ":" ++ strconv.Quote U name) := by
  simpa using genVals_append U name ts [] (List.replicate ts.length "") (by simp)

namespace camelcase

theorem appendToLast_flatten (runes : List (List Char)) (r : Char) :
    (appendToLast runes r).flatten = runes.flatten ++ [r] := by
  induction runes with
  | nil => rfl
  | cons run rest ih =>
    cases rest with
    | nil => simp [appendToLast]
    | cons b rest => simp only [appendToLast, List.flatten_cons, ih, List.append_assoc]

theorem classRuns_flatten (U : Unicode) (rs : List Char) (c : Nat) (runes : List (List Char)) :
    (classRuns U rs c runes).flatten = runes.flatten ++ rs := by
  induction rs generalizing c runes with
  | nil => simp [classRuns]
  | cons r rs ih =>
    rw [classRuns]
    split
    · rw [ih, appendToLast_flatten]; simp
    · rw [ih]; simp

theorem dropLast_append_getLast (l : List Char) : l.dropLast ++ l.getLast?.toList = l := by
  cases h : l.getLast? with
  | none =>
    have : l = [] := by simpa using h
    subst this; rfl
  | some a => simpa using List.dropLast_append_getLast? a h

theorem shiftUpper_flatten (U : Unicode) (cur : List Char) (rest : List (List Char)) :
    (shiftUpper U cur rest).flatten = cur ++ rest.flatten := by
  induction rest generalizing cur with
  | nil => simp [shiftUpper]
  | cons nxt rest ih =>
    rw [shiftUpper]
    split
    · split
      · rw [List.flatten_cons, ih, List.flatten_cons, ← List.append_assoc, ← List.append_assoc,
          dropLast_append_getLast, List.append_assoc]
      · rw [List.flatten_cons, ih, List.flatten_cons]
    · rw [List.flatten_cons, ih, List.flatten_cons]

theorem filter_nonempty_flatten (l : List (List Char)) :
    (l.filter (fun s => decide (0 < s.length))).flatten = l.flatten := by
  induction l with
  | nil => rfl
  | cons a l ih =>
    cases a with
    | nil => simp [List.filter, ih]
    | cons x a => simp [List.filter, ih]

/-- The words of the split, concatenated, are the string that was split. -/
theorem Split_flatten (U : Unicode) (src : String) :
    ((Split U src).map String.data).flatten = src.data := by
  unfold Split
  simp only [List.map_map]
  have hid : (String.data ∘ String.mk) = id := by funext l; rfl
  rw [hid, List.map_id, filter_nonempty_flatten]
  have h := classRuns_flatten U src.data 0 []
  cases hr : classRuns U src.data 0 [] with
  | nil => rw [hr] at h; simpa using h
  | cons cur rest => rw [hr] at h; simp only [shiftUpper_flatten]; simpa using h

theorem Split_join (U : Unicode) (src : String) : String.join (Split U src) = src := by
  apply String.ext
  rw [data_join, Split_flatten]

/-- Only the empty string has an empty split. -/
theorem Split_eq_nil (U : Unicode) (src : String) : Split U src = [] ↔ src = "" := by
  constructor
  · intro h
    have := Split_join U src
    rw [h] at this
    exact this.symm
  · intro h; subst h; rfl

end camelcase

theorem toCamelCase_isSome (U : Unicode) (name : String) (h : name ≠ "") :
    ∃ n, toCamelCase U name = some n := by
  unfold toCamelCase
  cases hs : camelcase.Split U name with
  | nil => exact absurd ((camelcase.Split_eq_nil U name).1 hs) h
  | cons w ns => exact ⟨_, rfl⟩

/-! ## The tag composer and the name converter -/

theorem Quote_plain (U : Unicode) (n : String)
    (h : ∀ c ∈ n.data, U.IsPrint c = true ∧ c.toNat ≠ 34 ∧ c.toNat ≠ 92) :
    strconv.Quote U n = "\"" ++ n ++ "\"" := by
  have hb : n.data.flatMap (strconv.escapedRune U) = n.data := by
    generalize n.data = l at h
    induction l with
    | nil => rfl
    | cons c l ih =>
      have hc := h c (List.mem_cons_self _ _)
      have hl := ih (fun d hd => h d (List.mem_cons_of_mem _ hd))
      simp only [List.flatMap_cons, hl]
      simp [strconv.escapedRune, hc.1, hc.2.1, hc.2.2]
  apply String.ext
  simp only [strconv.Quote, hb, String.data_append]
  rfl

theorem compose_tags (U : Unicode) (v : visitor) (n : String) (hT : v.Tags ≠ []) :
    v.compose U n = some (.ok ("`" ++ strings.Join
      (v.Tags.map (fun t => t ++ ":" ++ strconv.Quote U n)) " " ++ "`")) := by
  have hlen : v.Tags.length > 0 := List.length_pos.2 hT
  simp only [visitor.compose, hlen, if_true, genVals_eq_map]

/-- C1: for a non-empty tag list `Tags` and a field name (a non-empty
identifier), `visitor.gen` returns, without error, a backtick, the fragments
`t:"n"` for the tags `t` in the order of `Tags` joined by one space, and a
backtick, where `n` is the converted name and `"n"` is `n` as `%q` prints it; there
are `len(Tags)` fragments, and `"n"` is `n` between two double quotes whenever
`n` has only printable characters other than the double quote and the backslash. -/
theorem gen_tags (U : Unicode) (v : visitor) (name : String)
    (hT : v.Tags ≠ []) (hname : name ≠ "") :
    ∃ n frags, v.convertedName U name = some n
      ∧ frags = v.Tags.map (fun t => t ++ ":" ++ strconv.Quote U n)
      ∧ frags.length = v.Tags.length
      ∧ v.gen U name = some (.ok ("`" ++ " ".intercalate frags ++ "`"))
      ∧ ((∀ c ∈ n.data, U.IsPrint c = true ∧ c.toNat ≠ 34 ∧ c.toNat ≠ 92) →
          strconv.Quote U n = "\"" ++ n ++ "\"") := by
  have hconv : ∃ n, v.convertedName U name = some n := by
    unfold visitor.convertedName
    cases hm : v.Mapping name with
    | some m => exact ⟨m, rfl⟩
    | none => exact toCamelCase_isSome U name hname
  obtain ⟨n, hn⟩ := hconv
  refine ⟨n, _, hn, rfl, by simp, ?_, Quote_plain U n⟩
  simp only [visitor.gen, hn, compose_tags U v n hT, strings.Join]

theorem gen_tags_witness :
    Example.startBasic.Tags ≠ [] ∧ "ID" ≠ "" ∧
    ∃ n frags, Example.startBasic.convertedName Unicode.ascii "ID" = some n
      ∧ frags = Example.startBasic.Tags.map (fun t => t ++ ":" ++ strconv.Quote Unicode.ascii n)
      ∧ frags.length = Example.startBasic.Tags.length
      ∧ Example.startBasic.gen Unicode.ascii "ID"
          = some (.ok ("`" ++ " ".intercalate frags ++ "`"))
      ∧ ((∀ c ∈ n.data, Unicode.ascii.IsPrint c = true ∧ c.toNat ≠ 34 ∧ c.toNat ≠ 92) →
          strconv.Quote Unicode.ascii n = "\"" ++ n ++ "\"") :=
  ⟨by decide, by decide, gen_tags Unicode.ascii Example.startBasic "ID" (by decide) (by decide)⟩

/-- C2: when the field name is a key of `Mapping`, the name that `visitor.gen`
puts into the tag is the mapped value itself, with no conversion: the result is
the composition for the mapped value (for non-empty `Tags` the fragments
`t:"m"`), and `ID` mapped to `_id` gives `json:"_id" yaml:"_id"`; when the name
is not a key, the name put into the tag is `toCamelCase(name)`. -/
theorem gen_mapping (U : Unicode) (v : visitor) (name : String) :
    (∀ m, v.Mapping name = some m →
        v.convertedName U name = some m ∧ v.gen U name = v.compose U m ∧
        (v.Tags ≠ [] → v.gen U name = some (.ok ("`" ++ " ".intercalate
            (v.Tags.map (fun t => t ++ ":" ++ strconv.Quote U m)) ++ "`"))))
    ∧ (v.Mapping name = none →
        v.convertedName U name = toCamelCase U name ∧
        v.gen U name = (toCamelCase U name).bind (v.compose U))
    ∧ Example.startMap.gen Unicode.ascii "ID" = some (.ok "`json:\"_id\" yaml:\"_id\"`") := by
  refine ⟨?_, ?_, by decide⟩
  · intro m hm
    have hc : v.convertedName U name = some m := by simp [visitor.convertedName, hm]
    refine ⟨hc, by simp [visitor.gen, hc], fun hT => ?_⟩
    simp only [visitor.gen, hc, compose_tags U v m hT, strings.Join]
  · intro hm
    have hc : v.convertedName U name = toCamelCase U name := by simp [visitor.convertedName, hm]
    refine ⟨hc, ?_⟩
    simp only [visitor.gen, hc]
    cases toCamelCase U name <;> rfl

theorem gen_mapping_witness :
    Example.startMap.Mapping "Name" = some "title" ∧
    Example.startMap.Tags ≠ [] ∧
    Example.startMap.gen Unicode.ascii "Name" = some (.ok ("`" ++ " ".intercalate
      (Example.startMap.Tags.map (fun t => t ++ ":" ++ strconv.Quote Unicode.ascii "title")) ++ "`")) ∧
    Example.startMap.Mapping "Rating" = none ∧
    Example.startMap.convertedName Unicode.ascii "Rating" = toCamelCase Unicode.ascii "Rating" :=
  ⟨by decide, by decide,
    ((gen_mapping Unicode.ascii Example.startMap "Name").1 "title" (by decide)).2.2 (by decide),
    by decide,
    ((gen_mapping Unicode.ascii Example.startMap "Rating").2.1 (by decide)).1⟩

/-- C3: when the word split of `x` is `w0, w1, ..., wk`, `toCamelCase(x)` is the
lower case of `w0` followed by `w1 ... wk` unchanged, with no separator; an
identifier that is a single word converts to its full lower case; `ExDivDate`
converts to `exDivDate` and `ID` to `id`. -/
theorem toCamelCase_words (U : Unicode) (x w0 : String) (ws : List String)
    (h : camelcase.Split U x = w0 :: ws) :
    toCamelCase U x = some (strings.ToLower U w0 ++ String.join ws)
    ∧ (ws = [] → toCamelCase U x = some (strings.ToLower U x))
    ∧ toCamelCase Unicode.ascii "ExDivDate" = some "exDivDate"
    ∧ toCamelCase Unicode.ascii "ID" = some "id" := by
  have h1 : toCamelCase U x = some (strings.ToLower U w0 ++ String.join ws) := by
    simp only [toCamelCase, h, Join_empty_cons]
  refine ⟨h1, ?_, by decide, by decide⟩
  intro hws
  subst hws
  have hx : w0 = x := by
    have := camelcase.Split_join U x
    rw [h] at this
    rw [← this]
    apply String.ext
    simp [data_join]
  rw [h1, hx]
  congr 1
  apply String.ext
  simp [data_join, String.data_append]

theorem toCamelCase_words_witness :
    camelcase.Split Unicode.ascii "ExDivDate" = "Ex" :: ["Div", "Date"] ∧
    toCamelCase Unicode.ascii "ExDivDate"
      = some (strings.ToLower Unicode.ascii "Ex" ++ String.join ["Div", "Date"]) :=
  ⟨by decide, (toCamelCase_words Unicode.ascii "ExDivDate" "Ex" ["Div", "Date"] (by decide)).1⟩


/-! ## The field loop -/

theorem visitFields_skip (U : Unicode) (v : visitor) (sd : structDef) (f : Field)
    (fs : List Field) (h : f.eligible U = false) :
    visitor.visitFields U v sd (f :: fs)
      = (visitor.visitFields U v sd fs).map (visitor.withField f) := by
  rw [visitor.visitFields]
  by_cases hl : f.Names.length > 1 ∨ f.Names.length ≤ 0
  · simp only [hl, if_true]
  · have h1 : f.Names.length = 1 := by omega
    have hx : ast.IsExported U f.name = false := by
      simpa [Field.eligible, h1] using h
    simp only [hl, if_false, hx, Bool.not_false, if_true]

theorem visitFields_eligible (U : Unicode) (v : visitor) (sd : structDef) (f : Field)
    (fs : List Field) (h : f.eligible U = true) :
    visitor.visitFields U v sd (f :: fs)
      = match v.gen U f.name with
        | none => none
        | some (.error err) =>
          some ({ v with err := some err }, sd, { f with Tag := some f.tagNode } :: fs, false)
        | some (.ok val) =>
          match toCamelCase U f.name, sliceString v.src (f.Typ.Pos - 1) (f.Typ.End - 1) with
          | some cname, some ftype =>
            (visitor.visitFields U { v with changed := true }
              { sd with Fields := sd.Fields ++ [{ Name := cname, FieldType := ftype }] } fs).map
              (visitor.withField { f with Tag := some { Value := val } })
          | _, _ => none := by
  have h1 : f.Names.length = 1 := by
    simp only [Field.eligible, Bool.and_eq_true, decide_eq_true_eq] at h
    exact h.1
  have hx : ast.IsExported U f.name = true := by
    simp only [Field.eligible, Bool.and_eq_true] at h
    exact h.2
  have hl : ¬ (f.Names.length > 1 ∨ f.Names.length ≤ 0) := by omega
  rw [visitor.visitFields]
  simp only [hl, if_false, hx, Bool.not_true]
  rfl

/-- Inversion of one step of the loop at a group that is skipped. -/
theorem visitFields_skip_some (U : Unicode) {v : visitor} {sd : structDef} {f : Field}
    {fs : List Field} (he : f.eligible U = false) {v' : visitor} {sd' : structDef}
    {fs' : List Field} {fin : Bool}
    (h : visitor.visitFields U v sd (f :: fs) = some (v', sd', fs', fin)) :
    ∃ fs1, visitor.visitFields U v sd fs = some (v', sd', fs1, fin) ∧ fs' = f :: fs1 := by
  rw [visitFields_skip U v sd f fs he] at h
  cases hr : visitor.visitFields U v sd fs with
  | none => rw [hr] at h; cases h
  | some r =>
    obtain ⟨v1, sd1, fs1, fin1⟩ := r
    rw [hr] at h
    simp only [Option.map_some', visitor.withField, Option.some.injEq, Prod.mk.injEq] at h
    obtain ⟨rfl, rfl, rfl, rfl⟩ := h
    exact ⟨fs1, rfl, rfl⟩

/-- Inversion of one step of the loop at an eligible field: either the tag
composer fails and the loop is left, or the tag is written and the loop goes on
with `changed` set and one more field descriptor. -/
theorem visitFields_eligible_some (U : Unicode) {v : visitor} {sd : structDef} {f : Field}
    {fs : List Field} (he : f.eligible U = true) {v' : visitor} {sd' : structDef}
    {fs' : List Field} {fin : Bool}
    (h : visitor.visitFields U v sd (f :: fs) = some (v', sd', fs', fin)) :
    (∃ e, v.gen U f.name = some (.error e) ∧ v' = { v with err := some e } ∧ sd' = sd
        ∧ fs' = { f with Tag := some f.tagNode } :: fs ∧ fin = false)
    ∨ (∃ val cname ftype fs1, v.gen U f.name = some (.ok val)
        ∧ toCamelCase U f.name = some cname
        ∧ sliceString v.src (f.Typ.Pos - 1) (f.Typ.End - 1) = some ftype
        ∧ visitor.visitFields U { v with changed := true }
            { sd with Fields := sd.Fields ++ [{ Name := cname, FieldType := ftype }] } fs
            = some (v', sd', fs1, fin)
        ∧ fs' = { f with Tag := some { Value := val } } :: fs1) := by
  rw [visitFields_eligible U v sd f fs he] at h
  cases hg : v.gen U f.name with
  | none => simp only [hg] at h; cases h
  | some g =>
    cases g with
    | error e =>
      simp only [hg, Option.some.injEq, Prod.mk.injEq] at h
      obtain ⟨rfl, rfl, rfl, rfl⟩ := h
      exact Or.inl ⟨e, rfl, rfl, rfl, rfl, rfl⟩
    | ok val =>
      cases hc : toCamelCase U f.name with
      | none => simp only [hg, hc] at h; cases h
      | some cname =>
        cases hs : sliceString v.src (f.Typ.Pos - 1) (f.Typ.End - 1) with
        | none => simp only [hg, hc, hs] at h; cases h
        | some ftype =>
          cases hr : visitor.visitFields U { v with changed := true }
              { sd with Fields := sd.Fields ++ [{ Name := cname, FieldType := ftype }] } fs with
          | none => simp only [hg, hc, hs, hr, Option.map_none'] at h; cases h
          | some r =>
            obtain ⟨v1, sd1, fs1, fin1⟩ := r
            simp only [hg, hc, hs, hr, Option.map_some', visitor.withField, Option.some.injEq,
              Prod.mk.injEq] at h
            obtain ⟨rfl, rfl, rfl, rfl⟩ := h
            exact Or.inr ⟨val, cname, ftype, fs1, rfl, rfl, rfl, hr, rfl⟩

theorem gen_congr (U : Unicode) (v w : visitor) (h : w.toOptions = v.toOptions) (name : String) :
    w.gen U name = v.gen U name := by
  simp only [visitor.gen, visitor.convertedName, visitor.compose, h]

/-- What the field loop never touches: the options, the source text, the list
of collected structs; a set `changed` stays set; the field list keeps its
length; and a loop that runs to its end leaves `err` as it was. -/
theorem visitFields_inv (U : Unicode) (fs : List Field) :
    ∀ (v : visitor) (sd : structDef) (v' : visitor) (sd' : structDef) (fs' : List Field)
      (fin : Bool), visitor.visitFields U v sd fs = some (v', sd', fs', fin) →
      v'.toOptions = v.toOptions ∧ v'.src = v.src ∧ v'.structs = v.structs
        ∧ (v.changed = true → v'.changed = true) ∧ fs'.length = fs.length
        ∧ (fin = true → v'.err = v.err) := by
  induction fs with
  | nil =>
    intro v sd v' sd' fs' fin h
    simp only [visitor.visitFields, Option.some.injEq, Prod.mk.injEq] at h
    obtain ⟨rfl, -, rfl, -⟩ := h
    simp
  | cons f fs ih =>
    intro v sd v' sd' fs' fin h
    cases he : f.eligible U with
    | false =>
      obtain ⟨fs1, hr, rfl⟩ := visitFields_skip_some U he h
      simpa using ih v sd _ _ _ _ hr
    | true =>
      rcases visitFields_eligible_some U he h with
        ⟨e, -, rfl, rfl, rfl, rfl⟩ | ⟨val, cname, ftype, fs1, -, -, -, hr, rfl⟩
      · simp
      · obtain ⟨h1, h2, h3, h4, h5, h6⟩ := ih _ _ _ _ _ _ hr
        exact ⟨h1, h2, h3, fun _ => h4 rfl, by simp [h5], h6⟩

/-! ## One type declaration -/

theorem Visit_of_err (U : Unicode) (v : visitor) (t : TypeSpec) (h : v.err.isSome = true) :
    v.Visit U t = some (v, t) := by
  simp only [visitor.Visit, h, if_true]

theorem Visit_of_not_selects (U : Unicode) (v : visitor) (t : TypeSpec)
    (h : v.selects t = false) : v.Visit U t = some (v, t) := by
  obtain ⟨name, typ⟩ := t
  cases typ with
  | other => simp only [visitor.Visit, ite_self]
  | StructType fs =>
    simp only [visitor.selects] at h
    simp only [visitor.Visit, h, Bool.not_false, if_true, ite_self]

theorem Visit_of_selects (U : Unicode) (v : visitor) (t : TypeSpec)
    (herr : v.err = none) (h : v.selects t = true) :
    v.Visit U t
      = match v.visitFields U { Name := t.Name, Fields := [] } t.fields with
        | none => none
        | some (v', sd, fields, finished) =>
          if finished then
            some ({ v' with structs := v'.structs ++ [sd] }, { t with Typ := .StructType fields })
          else some (v', { t with Typ := .StructType fields }) := by
  obtain ⟨name, typ⟩ := t
  cases typ with
  | other => simp [visitor.selects] at h
  | StructType fs =>
    simp only [visitor.selects] at h
    simp only [visitor.Visit, herr, Option.isSome_none, Bool.false_eq_true, if_false, h,
      Bool.not_true, TypeSpec.fields]

theorem getElem?_insertGroup (k : Nat) (g : Field) (fs : List Field) (hk : k ≤ fs.length) :
    (insertGroup k g fs)[k]? = some g := by
  have hl : (fs.take k).length = k := by simp [List.length_take, Nat.min_eq_left hk]
  unfold insertGroup
  rw [List.getElem?_append_right (by omega), hl]
  simp

theorem visitFields_insert (U : Unicode) (g : Field) (hg : g.eligible U = false)
    (post : List Field) (pre : List Field) :
    ∀ (v : visitor) (sd : structDef),
      visitor.visitFields U v sd (pre ++ g :: post)
        = (visitor.visitFields U v sd (pre ++ post)).map
            (fun r => (r.1, r.2.1, insertGroup pre.length g r.2.2.1, r.2.2.2)) := by
  induction pre with
  | nil =>
    intro v sd
    simp only [List.nil_append, List.length_nil]
    rw [visitFields_skip U v sd g post hg]
    rfl
  | cons f pre ih =>
    intro v sd
    simp only [List.cons_append, List.length_cons]
    cases he : f.eligible U with
    | false =>
      rw [visitFields_skip U v sd f _ he, visitFields_skip U v sd f _ he, ih v sd]
      simp only [Option.map_map]
      rfl
    | true =>
      rw [visitFields_eligible U v sd f _ he, visitFields_eligible U v sd f _ he]
      cases hgen : v.gen U f.name with
      | none => rfl
      | some r =>
        cases r with
        | error e =>
          simp only [Option.map_some', insertGroup, List.take_succ_cons, List.drop_succ_cons,
            List.take_left', List.drop_left', List.cons_append]
        | ok val =>
          cases hc : toCamelCase U f.name with
          | none => rfl
          | some cname =>
            cases hs : sliceString v.src (f.Typ.Pos - 1) (f.Typ.End - 1) with
            | none => rfl
            | some ftype =>
              simp only [ih, Option.map_map]
              rfl

/-- Inversion of `Visit`: either nothing happens (an error is pending, the
declaration is no struct, or the type filter rejects it), or the field loop runs
on the fields of the struct. -/
theorem Visit_some (U : Unicode) {v : visitor} {t : TypeSpec} {v' : visitor} {t' : TypeSpec}
    (h : v.Visit U t = some (v', t')) :
    ((v.err.isSome = true ∨ v.selects t = false) ∧ v' = v ∧ t' = t)
    ∨ (v.err = none ∧ v.selects t = true ∧ ∃ v1 sd fs1 fin,
        v.visitFields U { Name := t.Name, Fields := [] } t.fields = some (v1, sd, fs1, fin)
        ∧ t' = { t with Typ := .StructType fs1 }
        ∧ v' = if fin then { v1 with structs := v1.structs ++ [sd] } else v1) := by
  cases herr : v.err with
  | some e =>
    rw [Visit_of_err U v t (by simp [herr])] at h
    simp only [Option.some.injEq, Prod.mk.injEq] at h
    exact Or.inl ⟨Or.inl (by simp), h.1.symm, h.2.symm⟩
  | none =>
    cases hsel : v.selects t with
    | false =>
      rw [Visit_of_not_selects U v t hsel] at h
      simp only [Option.some.injEq, Prod.mk.injEq] at h
      exact Or.inl ⟨Or.inr rfl, h.1.symm, h.2.symm⟩
    | true =>
      rw [Visit_of_selects U v t herr hsel] at h
      cases hr : v.visitFields U { Name := t.Name, Fields := [] } t.fields with
      | none => simp only [hr] at h; cases h
      | some r =>
        obtain ⟨v1, sd, fs1, fin⟩ := r
        simp only [hr] at h
        refine Or.inr ⟨rfl, rfl, v1, sd, fs1, fin, rfl, ?_⟩
        cases fin with
        | true =>
          simp only [if_true, Option.some.injEq, Prod.mk.injEq] at h
          exact ⟨h.2.symm, by simp [h.1]⟩
        | false =>
          simp only [Bool.false_eq_true, if_false, Option.some.injEq, Prod.mk.injEq] at h
          exact ⟨h.2.symm, by simp [h.1]⟩

/-- What `Visit` never touches: the options and the source text of the visitor,
the name of the declaration and the number of its fields; a set `changed` stays
set. -/
theorem Visit_inv (U : Unicode) {v : visitor} {t : TypeSpec} {v' : visitor} {t' : TypeSpec}
    (h : v.Visit U t = some (v', t')) :
    v'.toOptions = v.toOptions ∧ v'.src = v.src ∧ t'.Name = t.Name
      ∧ t'.fields.length = t.fields.length ∧ (v.changed = true → v'.changed = true) := by
  rcases Visit_some U h with ⟨-, rfl, rfl⟩ | ⟨-, -, v1, sd, fs1, fin, hr, rfl, rfl⟩
  · simp
  · obtain ⟨h1, h2, -, h4, h5, -⟩ := visitFields_inv U _ _ _ _ _ _ _ hr
    cases fin <;> simp [h1, h2, h5, TypeSpec.fields] <;> exact h4

/-- C4: a field group of a struct that declares zero names, more than one name,
or a single non-exported name contributes nothing to `visitor.Visit`: the call
on the struct with the group `g` between the fields `pre` and `post` ends in
the same visitor (so the same field descriptors) as the call on the struct
without the group, with the same fields around `g`, and `g` itself is in the
resulting struct as it was, its tag included. -/
theorem Visit_skips_group (U : Unicode) (v : visitor) (name : String) (pre post : List Field)
    (g : Field)
    (hg : g.Names.length = 0 ∨ g.Names.length > 1
      ∨ ∃ x, g.Names = [x] ∧ ast.IsExported U x = false) :
    v.Visit U { Name := name, Typ := .StructType (pre ++ g :: post) }
        = (v.Visit U { Name := name, Typ := .StructType (pre ++ post) }).map
            (fun r => (r.1, r.2.insertGroup pre.length g))
    ∧ ∀ v' t', v.Visit U { Name := name, Typ := .StructType (pre ++ g :: post) } = some (v', t') →
        t'.fields[pre.length]? = some g := by
  have he : g.eligible U = false := by
    rcases hg with h0 | h1 | ⟨x, hx, hex⟩
    · simp [Field.eligible, h0]
    · have : g.Names.length ≠ 1 := by omega
      simp [Field.eligible, this]
    · simp [Field.eligible, Field.name, hx, hex]
  have heq : v.Visit U { Name := name, Typ := .StructType (pre ++ g :: post) }
        = (v.Visit U { Name := name, Typ := .StructType (pre ++ post) }).map
            (fun r => (r.1, r.2.insertGroup pre.length g)) := by
    cases herr : v.err with
    | some e =>
      rw [Visit_of_err U v _ (by simp [herr]), Visit_of_err U v _ (by simp [herr])]
      simp [TypeSpec.insertGroup, insertGroup]
    | none =>
      cases hsel : v.shouldGen name with
      | false =>
        rw [Visit_of_not_selects U v _ (by simpa [visitor.selects] using hsel),
          Visit_of_not_selects U v _ (by simpa [visitor.selects] using hsel)]
        simp [TypeSpec.insertGroup, insertGroup]
      | true =>
        rw [Visit_of_selects U v _ herr (by simpa [visitor.selects] using hsel),
          Visit_of_selects U v _ herr (by simpa [visitor.selects] using hsel)]
        simp only [TypeSpec.fields, visitFields_insert U g he post pre v]
        cases hr : v.visitFields U { Name := name, Fields := [] } (pre ++ post) with
        | none => rfl
        | some r =>
          obtain ⟨v1, sd, fs1, fin⟩ := r
          cases fin <;> simp [TypeSpec.insertGroup]
  refine ⟨heq, ?_⟩
  intro v' t' h
  rw [heq] at h
  cases hr : v.Visit U { Name := name, Typ := .StructType (pre ++ post) } with
  | none => rw [hr] at h; cases h
  | some r =>
    obtain ⟨v1, t1⟩ := r
    rw [hr] at h
    simp only [Option.map_some', Option.some.injEq, Prod.mk.injEq] at h
    obtain ⟨-, rfl⟩ := h
    have hlen := (Visit_inv U hr).2.2.2.1
    simp only [TypeSpec.fields, List.length_append] at hlen
    rcases Visit_some U hr with ⟨-, -, rfl⟩ | ⟨-, -, v2, sd, fs1, fin, -, rfl, -⟩
    · simp only [TypeSpec.insertGroup, TypeSpec.fields]
      exact getElem?_insertGroup _ _ _ (by simp)
    · simp only [TypeSpec.fields] at hlen
      simp only [TypeSpec.insertGroup, TypeSpec.fields]
      exact getElem?_insertGroup _ _ _ (by omega)

/-! ## The walk -/

theorem Walk_cons_some (U : Unicode) {v : visitor} {t : TypeSpec} {ts : File} {v' : visitor}
    {n' : File} (h : Walk U v (t :: ts) = some (v', n')) :
    ∃ v1 t1 ts1, v.Visit U t = some (v1, t1) ∧ Walk U v1 ts = some (v', ts1)
      ∧ n' = t1 :: ts1 := by
  rw [Walk] at h
  cases hv : v.Visit U t with
  | none => simp only [hv] at h; cases h
  | some r =>
    obtain ⟨v1, t1⟩ := r
    simp only [hv] at h
    cases hw : Walk U v1 ts with
    | none => simp only [hw, Option.map_none'] at h; cases h
    | some r2 =>
      obtain ⟨v2, ts1⟩ := r2
      simp only [hw, Option.map_some', Option.some.injEq, Prod.mk.injEq] at h
      obtain ⟨rfl, rfl⟩ := h
      exact ⟨v1, t1, ts1, rfl, hw, rfl⟩

theorem shouldGen_iff (v : visitor) (name : String) :
    v.shouldGen name = true ↔ v.Types = [] ∨ name ∈ v.Types := by
  unfold visitor.shouldGen
  by_cases h : v.Types.length = 0
  · simp [h, List.length_eq_zero.1 h]
  · have hne : v.Types ≠ [] := fun h0 => h (by simp [h0])
    simp only [h, if_false, List.any_eq_true, decide_eq_true_eq, hne, false_or]
    constructor
    · rintro ⟨typ, hm, rfl⟩; exact hm
    · intro hm; exact ⟨name, hm, rfl⟩

theorem selects_congr (v w : visitor) (h : w.toOptions = v.toOptions) (t : TypeSpec) :
    w.selects t = v.selects t := by
  simp only [visitor.selects, visitor.shouldGen, h]

/-- What the walk never touches: the options and the source text; a set
`changed` stays set; and every declaration that is not selected (no struct, or
rejected by the type filter) is left as it was. -/
theorem Walk_inv (U : Unicode) (n : File) :
    ∀ (v v' : visitor) (n' : File), Walk U v n = some (v', n') →
      v'.toOptions = v.toOptions ∧ v'.src = v.src ∧ (v.changed = true → v'.changed = true)
        ∧ List.Forall₂ (fun t t' => v.selects t = false → t' = t) n n' := by
  induction n with
  | nil =>
    intro v v' n' h
    simp only [Walk, Option.some.injEq, Prod.mk.injEq] at h
    obtain ⟨rfl, rfl⟩ := h
    simp
  | cons t ts ih =>
    intro v v' n' h
    obtain ⟨v1, t1, ts1, hv, hw, rfl⟩ := Walk_cons_some U h
    obtain ⟨h1, h2, h3, h4⟩ := ih v1 v' ts1 hw
    obtain ⟨g1, g2, -, -, g5⟩ := Visit_inv U hv
    refine ⟨h1.trans g1, h2.trans g2, fun hc => h3 (g5 hc), List.Forall₂.cons ?_ ?_⟩
    · intro hsel
      rcases Visit_some U hv with ⟨-, -, rfl⟩ | ⟨-, hs, -⟩
      · rfl
      · rw [hsel] at hs; cases hs
    · refine List.Forall₂.imp ?_ h4
      intro a b hab hsel
      exact hab (by rw [selects_congr v v1 g1]; exact hsel)

/-- C5: `shouldGen(name)` is true exactly when `Types` is empty or contains
`name`, so with an empty `Types` every struct declaration is processed; and for
a non-empty `Types`, the walk leaves every declaration whose name is not in
`Types` exactly as it was, field tags included, whatever its fields are. -/
theorem walk_type_filter (U : Unicode) (o : Options) (n : File) (raw : List UInt8)
    (r : Option visitor × Option String) (n' : File)
    (hT : o.Types ≠ []) (h : walkAST U o n raw = some (r, n')) :
    List.Forall₂ (fun t t' => t.Name ∉ o.Types → t' = t) n n'
    ∧ ∀ (w : visitor) (name : String),
        w.shouldGen name = true ↔ w.Types = [] ∨ name ∈ w.Types := by
  refine ⟨?_, shouldGen_iff⟩
  unfold walkAST at h
  cases hw : Walk U (visitor.new o raw) n with
  | none => simp only [hw] at h; cases h
  | some res =>
    obtain ⟨v, n1⟩ := res
    have hn : n1 = n' := by
      simp only [hw] at h
      cases he : v.err with
      | some e => simp only [he, Option.some.injEq, Prod.mk.injEq] at h; exact h.2
      | none =>
        simp only [he] at h
        split at h <;> simp only [Option.some.injEq, Prod.mk.injEq] at h <;> exact h.2
    subst hn
    refine List.Forall₂.imp ?_ (Walk_inv U n _ _ _ hw).2.2.2
    intro t t' hsel hname
    apply hsel
    have hs : (visitor.new o raw).shouldGen t.Name = false := by
      cases hsg : (visitor.new o raw).shouldGen t.Name with
      | false => rfl
      | true =>
        rcases (shouldGen_iff _ _).1 hsg with h0 | hm
        · exact absurd h0 hT
        · exact absurd hm hname
    unfold visitor.selects
    cases t.Typ with
    | other => rfl
    | StructType fs => exact hs

theorem Tagged_congr (U : Unicode) (v w : visitor) (h : w.toOptions = v.toOptions)
    (f f' : Field) : w.Tagged U f f' ↔ v.Tagged U f f' := by
  simp only [visitor.Tagged, gen_congr U v w h]

theorem TaggedSpec_congr (U : Unicode) (v w : visitor) (h : w.toOptions = v.toOptions)
    (t t' : TypeSpec) : w.TaggedSpec U t t' ↔ v.TaggedSpec U t t' := by
  have hT : w.Tagged U = v.Tagged U := by
    funext f f'
    exact propext (Tagged_congr U v w h f f')
  simp only [visitor.TaggedSpec, selects_congr v w h, hT]

/-- A loop that is left through `return nil` has set `err`. -/
theorem visitFields_unfinished (U : Unicode) (fs : List Field) :
    ∀ (v : visitor) (sd : structDef) (v' : visitor) (sd' : structDef) (fs' : List Field),
      visitor.visitFields U v sd fs = some (v', sd', fs', false) → v'.err.isSome = true := by
  induction fs with
  | nil =>
    intro v sd v' sd' fs' h
    simp [visitor.visitFields] at h
  | cons f fs ih =>
    intro v sd v' sd' fs' h
    cases he : f.eligible U with
    | false =>
      obtain ⟨fs1, hr, -⟩ := visitFields_skip_some U he h
      exact ih _ _ _ _ _ hr
    | true =>
      rcases visitFields_eligible_some U he h with
        ⟨e, -, rfl, -, -, -⟩ | ⟨val, cname, ftype, fs1, -, -, -, hr, -⟩
      · rfl
      · exact ih _ _ _ _ _ hr

/-- A loop that runs to its end has written the composed tag into every
eligible field and left the other fields alone; `changed` is set exactly when
it was set before or some field is eligible. -/
theorem visitFields_finished (U : Unicode) (fs : List Field) :
    ∀ (v : visitor) (sd : structDef) (v' : visitor) (sd' : structDef) (fs' : List Field),
      visitor.visitFields U v sd fs = some (v', sd', fs', true) →
      List.Forall₂ (v.Tagged U) fs fs'
        ∧ v'.changed = (v.changed || fs.any (Field.eligible U)) := by
  induction fs with
  | nil =>
    intro v sd v' sd' fs' h
    simp only [visitor.visitFields, Option.some.injEq, Prod.mk.injEq] at h
    obtain ⟨rfl, -, rfl, -⟩ := h
    simp
  | cons f fs ih =>
    intro v sd v' sd' fs' h
    cases he : f.eligible U with
    | false =>
      obtain ⟨fs1, hr, rfl⟩ := visitFields_skip_some U he h
      obtain ⟨h1, h2⟩ := ih _ _ _ _ _ hr
      refine ⟨List.Forall₂.cons ?_ h1, ?_⟩
      · simp [visitor.Tagged, he]
      · simp [h2, he]
    | true =>
      rcases visitFields_eligible_some U he h with
        ⟨e, -, -, -, -, hfin⟩ | ⟨val, cname, ftype, fs1, hg, -, -, hr, rfl⟩
      · cases hfin
      · obtain ⟨h1, h2⟩ := ih _ _ _ _ _ hr
        refine ⟨List.Forall₂.cons ?_ ?_, ?_⟩
        · simp only [visitor.Tagged, he, if_true]
          exact ⟨val, hg, rfl⟩
        · refine List.Forall₂.imp ?_ h1
          intro a b hab
          exact (Tagged_congr U v _ rfl a b).1 hab
        · simp [h2, he]

theorem Walk_of_err (U : Unicode) (n : File) (v : visitor) (h : v.err.isSome = true) :
    Walk U v n = some (v, n) := by
  induction n with
  | nil => rfl
  | cons t ts ih => simp only [Walk, Visit_of_err U v t h, ih, Option.map_some']

/-- A walk that ends without error started without error, has tagged every
selected struct, and has `changed` set exactly when it was set before or some
selected struct has an eligible field. -/
theorem Walk_finished (U : Unicode) (n : File) :
    ∀ (v v' : visitor) (n' : File), Walk U v n = some (v', n') → v'.err = none →
      v.err = none ∧ List.Forall₂ (v.TaggedSpec U) n n'
        ∧ v'.changed = (v.changed || n.any (v.hasTarget U)) := by
  induction n with
  | nil =>
    intro v v' n' h herr
    simp only [Walk, Option.some.injEq, Prod.mk.injEq] at h
    obtain ⟨rfl, rfl⟩ := h
    simp [herr]
  | cons t ts ih =>
    intro v v' n' h herr
    obtain ⟨v1, t1, ts1, hv, hw, rfl⟩ := Walk_cons_some U h
    obtain ⟨h1, h2, h3⟩ := ih v1 v' ts1 hw herr
    have hopt := (Visit_inv U hv).1
    have htail : List.Forall₂ (v.TaggedSpec U) ts ts1 :=
      List.Forall₂.imp (fun a b hab => (TaggedSpec_congr U v v1 hopt a b).1 hab) h2
    have hany : ts.any (v1.hasTarget U) = ts.any (v.hasTarget U) := by
      have : v1.hasTarget U = v.hasTarget U := by
        funext a; simp only [visitor.hasTarget, selects_congr v v1 hopt]
      rw [this]
    rcases Visit_some U hv with ⟨hc, rfl, rfl⟩ | ⟨herr0, hsel, v2, sd, fs1, fin, hr, rfl, rfl⟩
    · have hv0 : v1.err.isSome = false := by simp [h1]
      have hns : v1.selects t1 = false := by
        rcases hc with hc | hc
        · rw [hv0] at hc; cases hc
        · exact hc
      refine ⟨h1, List.Forall₂.cons ?_ htail, ?_⟩
      · simp [visitor.TaggedSpec, hns]
      · simp [h3, visitor.hasTarget, hns]
    · cases fin with
      | false =>
        have := visitFields_unfinished U _ _ _ _ _ _ hr
        simp only [Bool.false_eq_true, if_false] at h1
        rw [h1] at this
        cases this
      | true =>
        obtain ⟨g1, g2⟩ := visitFields_finished U _ _ _ _ _ _ hr
        refine ⟨herr0, List.Forall₂.cons ?_ htail, ?_⟩
        · simp only [visitor.TaggedSpec, hsel, if_true]
          exact ⟨fs1, rfl, g1⟩
        · simp only [if_true] at h3 hany
          rw [h3, hany]
          simp [g2, visitor.hasTarget, hsel, Bool.or_assoc]

theorem walkAST_some (U : Unicode) {o : Options} {n : File} {raw : List UInt8}
    {r : Option visitor × Option String} {n' : File}
    (h : walkAST U o n raw = some (r, n')) :
    ∃ v, Walk U (visitor.new o raw) n = some (v, n')
      ∧ r = match v.err with
        | some err => (none, some err)
        | none => if !v.changed then (none, none) else (some v, none) := by
  unfold walkAST at h
  cases hw : Walk U (visitor.new o raw) n with
  | none => simp only [hw] at h; cases h
  | some res =>
    obtain ⟨v, n1⟩ := res
    simp only [hw] at h
    refine ⟨v, ?_⟩
    cases he : v.err with
    | some e =>
      simp only [he, Option.some.injEq, Prod.mk.injEq] at h
      simp [h.1, h.2]
    | none =>
      simp only [he] at h
      split at h <;> simp only [Option.some.injEq, Prod.mk.injEq] at h <;>
        simp_all

/-- C6: after a walk that ends without error, every eligible field (exactly one
exported name) of every struct passing the type filter has as tag value exactly
the text that `visitor.gen` composes for its name, whatever tag it had before:
the field after the walk is the field before with its tag replaced, so nothing
of the old tag text is kept. -/
theorem walk_overwrites (U : Unicode) (o : Options) (n : File) (raw : List UInt8)
    (v : Option visitor) (n' : File) (h : walkAST U o n raw = some ((v, none), n')) :
    List.Forall₂ (fun t t' =>
      ∀ fs, t.Typ = .StructType fs → (visitor.new o raw).shouldGen t.Name = true →
        ∃ fs', t' = { t with Typ := .StructType fs' } ∧
          List.Forall₂ (fun f f' =>
            f.eligible U = true →
              ∃ val, (visitor.new o raw).gen U f.name = some (.ok val)
                ∧ f' = { f with Tag := some { Value := val } }) fs fs') n n' := by
  obtain ⟨w, hw, hr⟩ := walkAST_some U h
  have herr : w.err = none := by
    cases he : w.err with
    | none => rfl
    | some e => rw [he] at hr; simp at hr
  refine List.Forall₂.imp ?_ (Walk_finished U n _ _ _ hw herr).2.1
  intro t t' htt fs hfs hsg
  have hsel : (visitor.new o raw).selects t = true := by
    simp only [visitor.selects, hfs, hsg]
  simp only [visitor.TaggedSpec, hsel, if_true] at htt
  obtain ⟨fs', ht', hF⟩ := htt
  refine ⟨fs', ht', ?_⟩
  simp only [TypeSpec.fields, hfs] at hF
  refine List.Forall₂.imp ?_ hF
  intro f f' hff he
  simpa [visitor.Tagged, he] using hff


/-! ## The `changed` flag -/

theorem tagText_tagNode (f : Field) :
    Field.tagText { f with Tag := some f.tagNode } = f.tagText := by
  unfold Field.tagText Field.tagNode
  cases f.Tag <;> rfl

/-- A loop that ends with `changed` unset has changed no tag text. -/
theorem visitFields_unchanged (U : Unicode) (fs : List Field) :
    ∀ (v : visitor) (sd : structDef) (v' : visitor) (sd' : structDef) (fs' : List Field)
      (fin : Bool), visitor.visitFields U v sd fs = some (v', sd', fs', fin) →
      v'.changed = false → fs'.map Field.tagText = fs.map Field.tagText := by
  induction fs with
  | nil =>
    intro v sd v' sd' fs' fin h _
    simp only [visitor.visitFields, Option.some.injEq, Prod.mk.injEq] at h
    obtain ⟨-, -, rfl, -⟩ := h
    rfl
  | cons f fs ih =>
    intro v sd v' sd' fs' fin h hc
    cases he : f.eligible U with
    | false =>
      obtain ⟨fs1, hr, rfl⟩ := visitFields_skip_some U he h
      simp [ih _ _ _ _ _ _ hr hc]
    | true =>
      rcases visitFields_eligible_some U he h with
        ⟨e, -, -, -, rfl, -⟩ | ⟨val, cname, ftype, fs1, -, -, -, hr, -⟩
      · simp [tagText_tagNode]
      · have := (visitFields_inv U _ _ _ _ _ _ _ hr).2.2.2.1 rfl
        rw [hc] at this
        cases this

theorem Visit_unchanged (U : Unicode) {v : visitor} {t : TypeSpec} {v' : visitor}
    {t' : TypeSpec} (h : v.Visit U t = some (v', t')) (hc : v'.changed = false) :
    t'.fields.map Field.tagText = t.fields.map Field.tagText := by
  rcases Visit_some U h with ⟨-, -, rfl⟩ | ⟨-, -, v1, sd, fs1, fin, hr, rfl, rfl⟩
  · rfl
  · have hc1 : v1.changed = false := by cases fin <;> simpa using hc
    simpa [TypeSpec.fields] using visitFields_unchanged U _ _ _ _ _ _ _ hr hc1

/-- A walk that ends with `changed` unset has changed no tag text. -/
theorem Walk_unchanged (U : Unicode) (n : File) :
    ∀ (v v' : visitor) (n' : File), Walk U v n = some (v', n') → v'.changed = false →
      tagTexts n' = tagTexts n := by
  induction n with
  | nil =>
    intro v v' n' h _
    simp only [Walk, Option.some.injEq, Prod.mk.injEq] at h
    obtain ⟨-, rfl⟩ := h
    rfl
  | cons t ts ih =>
    intro v v' n' h hc
    obtain ⟨v1, t1, ts1, hv, hw, rfl⟩ := Walk_cons_some U h
    have hc1 : v1.changed = false := by
      cases h1 : v1.changed with
      | false => rfl
      | true =>
        have := (Walk_inv U ts _ _ _ hw).2.2.1 h1
        rw [hc] at this
        cases this
    have h1 := Visit_unchanged U hv hc1
    have h2 := ih _ _ _ hw hc
    simp only [tagTexts, List.flatMap_cons, List.map_append] at h2 ⊢
    rw [h1, h2]

/-- C7, as the code has it: if the tag text of at least one field differs after
the walk, `changed` is true; and after a walk without error `changed` is true
exactly when some struct passing the type filter has an eligible field, that
is, when the walk wrote a tag, whether or not the text written differs from
the text that was there. -/
theorem changed_iff_written (U : Unicode) (o : Options) (n : File) (raw : List UInt8)
    (v : visitor) (n' : File) (h : Walk U (visitor.new o raw) n = some (v, n')) :
    (tagTexts n' ≠ tagTexts n → v.changed = true)
    ∧ (v.err = none →
        (v.changed = true ↔
          ∃ t ∈ n, (visitor.new o raw).selects t = true ∧ ∃ f ∈ t.fields, f.eligible U = true)) := by
  constructor
  · intro hne
    cases hc : v.changed with
    | true => rfl
    | false => exact absurd (Walk_unchanged U n _ _ _ h hc) hne
  · intro herr
    have := (Walk_finished U n _ _ _ h herr).2.2
    rw [this]
    simp [visitor.new, visitor.hasTarget, List.any_eq_true]

/-! ## Walking twice -/

theorem visitFields_idem (U : Unicode) (fs : List Field) :
    ∀ (v : visitor) (sd : structDef) (v' : visitor) (sd' : structDef) (fs' : List Field)
      (fin : Bool), visitor.visitFields U v sd fs = some (v', sd', fs', fin) →
      visitor.visitFields U v sd fs' = some (v', sd', fs', fin) := by
  induction fs with
  | nil =>
    intro v sd v' sd' fs' fin h
    simp only [visitor.visitFields, Option.some.injEq, Prod.mk.injEq] at h
    obtain ⟨rfl, rfl, rfl, rfl⟩ := h
    rfl
  | cons f fs ih =>
    intro v sd v' sd' fs' fin h
    cases he : f.eligible U with
    | false =>
      obtain ⟨fs1, hr, rfl⟩ := visitFields_skip_some U he h
      rw [visitFields_skip U v sd f fs1 he, ih _ _ _ _ _ _ hr]
      rfl
    | true =>
      rcases visitFields_eligible_some U he h with
        ⟨e, hg, rfl, rfl, rfl, rfl⟩ | ⟨val, cname, ftype, fs1, hg, hcn, hs, hr, rfl⟩
      · have he1 : Field.eligible U { f with Tag := some f.tagNode } = true := he
        rw [visitFields_eligible U v _ _ fs he1]
        have hg1 : v.gen U (Field.name { f with Tag := some f.tagNode }) = some (.error e) := hg
        simp only [hg1]
        rfl
      · have he1 : Field.eligible U { f with Tag := some { Value := val } } = true := he
        rw [visitFields_eligible U v _ _ fs1 he1]
        have hg1 : v.gen U (Field.name { f with Tag := some { Value := val } })
            = some (.ok val) := hg
        have hc1 : toCamelCase U (Field.name { f with Tag := some { Value := val } })
            = some cname := hcn
        simp only [hg1, hc1, hs, ih _ _ _ _ _ _ hr]
        rfl

theorem Visit_idem (U : Unicode) {v : visitor} {t : TypeSpec} {v' : visitor} {t' : TypeSpec}
    (h : v.Visit U t = some (v', t')) : v.Visit U t' = some (v', t') := by
  rcases Visit_some U h with ⟨-, rfl, rfl⟩ | ⟨herr, hsel, v1, sd, fs1, fin, hr, rfl, rfl⟩
  · exact h
  · have hsel1 : v.selects { t with Typ := .StructType fs1 } = true := by
      obtain ⟨name, typ⟩ := t
      cases typ with
      | other => simp [visitor.selects] at hsel
      | StructType fs => simpa [visitor.selects] using hsel
    rw [Visit_of_selects U v _ herr hsel1]
    have := visitFields_idem U _ _ _ _ _ _ _ hr
    simp only [TypeSpec.fields, this]
    cases fin <;> rfl

theorem Walk_idem (U : Unicode) (n : File) :
    ∀ (v v' : visitor) (n' : File), Walk U v n = some (v', n') →
      Walk U v n' = some (v', n') := by
  induction n with
  | nil =>
    intro v v' n' h
    simp only [Walk, Option.some.injEq, Prod.mk.injEq] at h
    obtain ⟨rfl, rfl⟩ := h
    rfl
  | cons t ts ih =>
    intro v v' n' h
    obtain ⟨v1, t1, ts1, hv, hw, rfl⟩ := Walk_cons_some U h
    simp only [Walk, Visit_idem U hv, ih _ _ _ hw, Option.map_some']

/-- C8: the walk is idempotent on the tree.  When `walkAST` succeeds on a tree
and leaves the tree `n'`, `walkAST` with the same configuration on `n'`
succeeds again and leaves `n'`: every field tag is as after the first walk. -/
theorem walk_idempotent (U : Unicode) (o : Options) (n : File) (raw : List UInt8)
    (v : Option visitor) (n' : File) (h : walkAST U o n raw = some ((v, none), n')) :
    walkAST U o n' raw = some ((v, none), n') := by
  obtain ⟨w, hw, hr⟩ := walkAST_some U h
  have h2 := Walk_idem U n _ _ _ hw
  unfold walkAST
  rw [h2]
  cases he : w.err with
  | some e => rw [he] at hr; simp at hr
  | none =>
    rw [he] at hr
    simp only [he]
    rw [hr]
    cases w.changed <;> rfl

/-! ## A walk that ends in an error -/

theorem visitFields_append_finished (U : Unicode) (b : List Field) (a : List Field) :
    ∀ (v : visitor) (sd : structDef) (v1 : visitor) (sd1 : structDef) (a' : List Field),
      visitor.visitFields U v sd a = some (v1, sd1, a', true) →
      visitor.visitFields U v sd (a ++ b)
        = (visitor.visitFields U v1 sd1 b).map
            (fun r => (r.1, r.2.1, a' ++ r.2.2.1, r.2.2.2)) := by
  induction a with
  | nil =>
    intro v sd v1 sd1 a' h
    simp only [visitor.visitFields, Option.some.injEq, Prod.mk.injEq] at h
    obtain ⟨rfl, rfl, rfl, -⟩ := h
    rw [List.nil_append]
    cases visitor.visitFields U v sd b <;> rfl
  | cons f a ih =>
    intro v sd v1 sd1 a' h
    cases he : f.eligible U with
    | false =>
      obtain ⟨fs1, hr, rfl⟩ := visitFields_skip_some U he h
      rw [List.cons_append, visitFields_skip U v sd f _ he, ih _ _ _ _ _ hr, Option.map_map]
      rfl
    | true =>
      rcases visitFields_eligible_some U he h with
        ⟨e, -, -, -, -, hfin⟩ | ⟨val, cname, ftype, fs1, hg, hcn, hs, hr, rfl⟩
      · cases hfin
      · rw [List.cons_append, visitFields_eligible U v sd f _ he]
        simp only [hg, hcn, hs, ih _ _ _ _ _ hr, Option.map_map]
        rfl

theorem Walk_append (U : Unicode) (b : File) (a : File) :
    ∀ (v v1 : visitor) (a' : File), Walk U v a = some (v1, a') →
      Walk U v (a ++ b) = (Walk U v1 b).map (fun r => (r.1, a' ++ r.2)) := by
  induction a with
  | nil =>
    intro v v1 a' h
    simp only [Walk, Option.some.injEq, Prod.mk.injEq] at h
    obtain ⟨rfl, rfl⟩ := h
    rw [List.nil_append]
    cases Walk U v b <;> rfl
  | cons t ts ih =>
    intro v v1 a' h
    obtain ⟨v2, t1, ts1, hv, hw, rfl⟩ := Walk_cons_some U h
    rw [List.cons_append, Walk]
    simp only [hv, ih _ _ _ hw, Option.map_map]
    rfl

theorem Walk_append_some (U : Unicode) (b : File) (a : File) :
    ∀ (v v' : visitor) (n' : File), Walk U v (a ++ b) = some (v', n') →
      ∃ v1 a' b', Walk U v a = some (v1, a') ∧ Walk U v1 b = some (v', b') ∧ n' = a' ++ b' := by
  induction a with
  | nil =>
    intro v v' n' h
    exact ⟨v, [], n', rfl, h, rfl⟩
  | cons t ts ih =>
    intro v v' n' h
    obtain ⟨v2, t1, ts1, hv, hw, rfl⟩ := Walk_cons_some U h
    obtain ⟨v1, a', b', h1, h2, rfl⟩ := ih _ _ _ hw
    refine ⟨v1, t1 :: a', b', ?_, h2, rfl⟩
    simp only [Walk, hv, h1, Option.map_some']

/-- C10: let the field `f` be eligible, in a struct `name` that passes the type
filter, with the tag composer failing on it with the error `e`, and let the
walk of the tree up to `f` (the declarations `pre` and the fields `fpre` before
it) end without error.  Then `walkAST` on the whole tree returns the error `e`
and no visitor; the declarations and fields before `f` are as the walk up to
`f` left them, each eligible field of a selected struct with its newly
composed tag; and the fields `fpost` and declarations `post` after `f` are as
they were. -/
theorem walk_stops_at_error (U : Unicode) (o : Options) (raw : List UInt8)
    (pre post : File) (name : String) (fpre fpost : List Field) (f : Field) (e : String)
    (r : Option visitor) (n1 : File)
    (hwalk : walkAST U o (pre ++ [{ Name := name, Typ := .StructType fpre }]) raw
      = some ((r, none), n1))
    (hsel : (visitor.new o raw).shouldGen name = true)
    (hf : f.eligible U = true)
    (hgen : (visitor.new o raw).gen U f.name = some (.error e)) :
    ∃ pre' fpre', n1 = pre' ++ [{ Name := name, Typ := .StructType fpre' }]
      ∧ walkAST U o (pre ++ { Name := name, Typ := .StructType (fpre ++ f :: fpost) } :: post) raw
          = some ((none, some e),
              pre' ++ { Name := name,
                        Typ := .StructType (fpre' ++ { f with Tag := some f.tagNode } :: fpost) }
                :: post)
      ∧ List.Forall₂ ((visitor.new o raw).TaggedSpec U) pre pre'
      ∧ List.Forall₂ ((visitor.new o raw).Tagged U) fpre fpre' := by
  obtain ⟨w, hw, hr⟩ := walkAST_some U hwalk
  have herr : w.err = none := by
    cases he : w.err with
    | none => rfl
    | some e => rw [he] at hr; simp at hr
  obtain ⟨va, pre', b', hpre, hlast, rfl⟩ := Walk_append_some U _ _ _ _ _ hw
  obtain ⟨w1, t1, ts1, hv, hnil, rfl⟩ := Walk_cons_some U hlast
  simp only [Walk, Option.some.injEq, Prod.mk.injEq] at hnil
  obtain ⟨rfl, rfl⟩ := hnil
  have hva : va.err = none := (Walk_finished U _ _ _ _ hlast herr).1
  have hopt : va.toOptions = (visitor.new o raw).toOptions := (Walk_inv U _ _ _ _ hpre).1
  have hpreT := (Walk_finished U _ _ _ _ hpre hva).2.1
  have hselva : ∀ fs, va.selects { Name := name, Typ := .StructType fs } = true := by
    intro fs
    rw [selects_congr _ va hopt]
    simpa [visitor.selects] using hsel
  rcases Visit_some U hv with ⟨hc, -, -⟩ | ⟨-, -, vb, sd, fpre', fin, hloop, rfl, rfl⟩
  · rcases hc with hc | hc
    · rw [hva] at hc; cases hc
    · rw [hselva] at hc; cases hc
  · simp only [TypeSpec.fields] at hloop
    cases fin with
    | false =>
      have := visitFields_unfinished U _ _ _ _ _ _ hloop
      simp only [Bool.false_eq_true, if_false] at herr
      rw [herr] at this
      cases this
    | true =>
      have hvb : vb.toOptions = va.toOptions := (visitFields_inv U _ _ _ _ _ _ _ hloop).1
      have hgenb : vb.gen U f.name = some (.error e) := by
        rw [gen_congr U (visitor.new o raw) vb (hvb.trans hopt)]
        exact hgen
      have hfT := (visitFields_finished U _ _ _ _ _ _ hloop).1
      refine ⟨pre', fpre', rfl, ?_, hpreT, ?_⟩
      · have hloop2 : visitor.visitFields U va { Name := name, Fields := [] } (fpre ++ f :: fpost)
            = some ({ vb with err := some e }, sd,
                fpre' ++ { f with Tag := some f.tagNode } :: fpost, false) := by
          rw [visitFields_append_finished U _ _ _ _ _ _ _ hloop,
            visitFields_eligible U vb sd f fpost hf]
          simp only [hgenb, Option.map_some']
        have hvisit : va.Visit U { Name := name, Typ := .StructType (fpre ++ f :: fpost) }
            = some ({ vb with err := some e },
                { Name := name,
                  Typ := .StructType (fpre' ++ { f with Tag := some f.tagNode } :: fpost) }) := by
          rw [Visit_of_selects U va _ hva (hselva _)]
          simp only [TypeSpec.fields, hloop2, Bool.false_eq_true, if_false]
        unfold walkAST
        rw [Walk_append U _ _ _ _ _ hpre]
        simp only [Walk, hvisit, Walk_of_err U post { vb with err := some e } rfl,
          Option.map_some']
      · exact List.Forall₂.imp (fun a b hab => (Tagged_congr U _ _ hopt a b).1 hab) hfT


/-! ## The claims at concrete inputs -/

theorem Visit_skips_group_witness :
    (Example.fieldPrivate.Names.length = 0 ∨ Example.fieldPrivate.Names.length > 1
      ∨ ∃ x, Example.fieldPrivate.Names = [x] ∧ ast.IsExported Unicode.ascii x = false)
    ∧ Example.startBasic.Visit Unicode.ascii
          { Name := "bar",
            Typ := .StructType ([Example.fieldID, Example.fieldName] ++ Example.fieldPrivate :: []) }
        = (Example.startBasic.Visit Unicode.ascii
            { Name := "bar", Typ := .StructType ([Example.fieldID, Example.fieldName] ++ []) }).map
            (fun r =>
              (r.1, r.2.insertGroup [Example.fieldID, Example.fieldName].length
                Example.fieldPrivate)) :=
  ⟨Or.inr (Or.inr ⟨"private", rfl, by decide⟩),
    (Visit_skips_group Unicode.ascii Example.startBasic "bar"
      [Example.fieldID, Example.fieldName] [] Example.fieldPrivate
      (Or.inr (Or.inr ⟨"private", rfl, by decide⟩))).1⟩

theorem walk_type_filter_witness :
    Example.optsType.Types ≠ []
    ∧ walkAST Unicode.ascii Example.optsType Example.treeType Example.srcType
        = some ((some Example.visitorType, none), Example.treeTypeTagged)
    ∧ List.Forall₂ (fun t t' => t.Name ∉ Example.optsType.Types → t' = t)
        Example.treeType Example.treeTypeTagged :=
  ⟨by decide, rfl,
    (walk_type_filter Unicode.ascii Example.optsType Example.treeType Example.srcType _
      Example.treeTypeTagged (by decide) rfl).1⟩

theorem walk_overwrites_witness :
    walkAST Unicode.ascii Example.optsBasic Example.treeBasic Example.srcBasic
        = some ((some Example.visitorBasic, none), Example.treeBasicTagged)
    ∧ List.Forall₂ (fun t t' =>
      ∀ fs, t.Typ = .StructType fs → Example.startBasic.shouldGen t.Name = true →
        ∃ fs', t' = { t with Typ := .StructType fs' } ∧
          List.Forall₂ (fun f f' =>
            f.eligible Unicode.ascii = true →
              ∃ val, Example.startBasic.gen Unicode.ascii f.name = some (.ok val)
                ∧ f' = { f with Tag := some { Value := val } }) fs fs')
        Example.treeBasic Example.treeBasicTagged :=
  ⟨rfl, walk_overwrites Unicode.ascii Example.optsBasic Example.treeBasic Example.srcBasic
    (some Example.visitorBasic) Example.treeBasicTagged rfl⟩

/-- C7 fails as stated: on the tree of `TestGenBasic` whose fields `ID` and
`Name` already carry the tags composed for `json, yaml`, the walk leaves every
tag text as it was and yet ends with `changed = true`, and `walkAST` returns the
visitor, which reports a change. -/
theorem changed_counterexample :
    walkAST Unicode.ascii Example.optsBasic Example.treeBasicTagged Example.srcBasic
        = some ((some Example.visitorBasic, none), Example.treeBasicTagged)
    ∧ ¬ (∀ v n',
          Walk Unicode.ascii Example.startBasic Example.treeBasicTagged = some (v, n') →
          (v.changed = true ↔ tagTexts n' ≠ tagTexts Example.treeBasicTagged)) :=
  ⟨rfl, fun H => (H Example.visitorBasic Example.treeBasicTagged rfl).1 rfl rfl⟩

theorem changed_iff_written_witness :
    Walk Unicode.ascii Example.startBasic Example.treeBasicTagged
        = some (Example.visitorBasic, Example.treeBasicTagged)
    ∧ Example.visitorBasic.err = none
    ∧ (Example.visitorBasic.changed = true ↔
        ∃ t ∈ Example.treeBasicTagged, Example.startBasic.selects t = true
          ∧ ∃ f ∈ t.fields, f.eligible Unicode.ascii = true) :=
  ⟨rfl, rfl,
    (changed_iff_written Unicode.ascii Example.optsBasic Example.treeBasicTagged
      Example.srcBasic Example.visitorBasic Example.treeBasicTagged rfl).2 rfl⟩

theorem walk_idempotent_witness :
    walkAST Unicode.ascii Example.optsBasic Example.treeBasic Example.srcBasic
        = some ((some Example.visitorBasic, none), Example.treeBasicTagged)
    ∧ walkAST Unicode.ascii Example.optsBasic Example.treeBasicTagged Example.srcBasic
        = some ((some Example.visitorBasic, none), Example.treeBasicTagged) :=
  ⟨rfl, walk_idempotent Unicode.ascii Example.optsBasic Example.treeBasic Example.srcBasic
    (some Example.visitorBasic) Example.treeBasicTagged rfl⟩

theorem walk_stops_at_error_witness :
    walkAST Unicode.ascii Example.optsFailing
        ([] ++ [{ Name := "bar", Typ := .StructType [Example.fieldID] }]) Example.srcTwo
      = some ((some Example.visitorFailing, none), Example.treeCutTagged)
    ∧ Example.startFailing.shouldGen "bar" = true
    ∧ Example.fieldName.eligible Unicode.ascii = true
    ∧ Example.startFailing.gen Unicode.ascii Example.fieldName.name
        = some (.error "template: render error")
    ∧ ∃ pre' fpre',
        Example.treeCutTagged = pre' ++ [{ Name := "bar", Typ := .StructType fpre' }]
        ∧ walkAST Unicode.ascii Example.optsFailing
            ([] ++ { Name := "bar",
                     Typ := .StructType
                       ([Example.fieldID] ++ Example.fieldName :: [Example.fieldPrivate]) }
              :: [Example.structNot]) Example.srcTwo
          = some ((none, some "template: render error"),
              pre' ++ { Name := "bar",
                        Typ := .StructType
                          (fpre' ++ { Example.fieldName with Tag := some Example.fieldName.tagNode }
                            :: [Example.fieldPrivate]) }
                :: [Example.structNot])
        ∧ List.Forall₂ (Example.startFailing.TaggedSpec Unicode.ascii) [] pre'
        ∧ List.Forall₂ (Example.startFailing.Tagged Unicode.ascii) [Example.fieldID] fpre' :=
  ⟨rfl, by decide, by decide, by decide,
    walk_stops_at_error Unicode.ascii Example.optsFailing Example.srcTwo [] [Example.structNot]
      "bar" [Example.fieldID] [Example.fieldPrivate] Example.fieldName "template: render error"
      (some Example.visitorFailing) Example.treeCutTagged rfl (by decide) (by decide) (by decide)⟩

/-! ## The pipeline of one file -/

/-- C9, the code at a file whose only struct has no eligible field, with
`Tags: json, yaml`: `walkAST` returns no visitor and no error, and `genfile`
still calls the re-serializer `gen` and writes its output over the file; with
`DryRun` it prints that output, and with `Typescript` it panics on the nil
visitor. -/
theorem genfile_unmodified_writes :
    (walkAST Unicode.ascii Example.optsBasic Example.treePrivate
        (utf8 Example.textPrivate)).map (fun r => r.1) = some (none, none)
    ∧ genfile Unicode.ascii Example.envPrivate Example.optsBasic "foo.go"
      = ([Effect.Stdout "gen file foo.go\n", Effect.Gen,
          Effect.WriteFile "foo.go" Example.textPrivate], some none)
    ∧ genfile Unicode.ascii Example.envPrivate { Example.optsBasic with DryRun := true } "foo.go"
      = ([Effect.Stdout "gen file foo.go\n", Effect.Gen,
          Effect.Stdout (Example.textPrivate ++ "\n"), Effect.Stdout "\n"], some none)
    ∧ genfile Unicode.ascii Example.envPrivate
        { Example.optsBasic with Typescript := true } "foo.go"
      = ([Effect.Stdout "gen file foo.go\n", Effect.Gen], none) :=
  ⟨rfl, rfl, rfl, rfl⟩

/-! ## The tag composer with a template -/

/-- C11: when `Tags` is empty and a template is set, `visitor.gen` on a field
name (a non-empty identifier) renders the template once, with its variable `F`
bound to the converted name `n`: when the render gives the text `buf`, `gen`
returns a backtick, `buf` and a backtick with no error; when the render fails
with `e`, `gen` returns the error `e`; so `gen` returns an error exactly when
the render fails. -/
theorem gen_template (U : Unicode) (v : visitor) (name : String)
    (t : String → Except String String)
    (hT : v.Tags = []) (ht : v.Template = some t) (hname : name ≠ "") :
    ∃ n, v.convertedName U name = some n
      ∧ (∀ buf, t n = .ok buf → v.gen U name = some (.ok ("`" ++ buf ++ "`")))
      ∧ (∀ e, t n = .error e → v.gen U name = some (.error e))
      ∧ ((∃ e, v.gen U name = some (.error e)) ↔ ∃ e, t n = .error e) := by
  have hconv : ∃ n, v.convertedName U name = some n := by
    unfold visitor.convertedName
    cases hm : v.Mapping name with
    | some m => exact ⟨m, rfl⟩
    | none => exact toCamelCase_isSome U name hname
  obtain ⟨n, hn⟩ := hconv
  have hgen : v.gen U name = match t n with
      | .error e => some (.error e)
      | .ok buf => some (.ok ("`" ++ buf ++ "`")) := by
    simp only [visitor.gen, hn, visitor.compose, hT, ht, List.length_nil, gt_iff_lt,
      Nat.lt_irrefl, if_false]
  refine ⟨n, hn, ?_, ?_, ?_⟩
  · intro buf hb; rw [hgen, hb]
  · intro e he; rw [hgen, he]
  · rw [hgen]
    cases htn : t n with
    | error e => simp
    | ok buf => simp

/-- C12: when `Tags` is non-empty, the result of `visitor.gen` does not depend
on `Template`: a visitor that differs only in its template, whatever that
template is (none, or one whose render always fails), gets the same result, and
the result is never an error. -/
theorem gen_ignores_template (U : Unicode) (v : visitor) (name : String)
    (t : Option (String → Except String String)) (hT : v.Tags ≠ []) :
    visitor.gen U { v with Template := t } name = v.gen U name
    ∧ ∀ e, v.gen U name ≠ some (.error e) := by
  have hlen : v.Tags.length > 0 := List.length_pos.2 hT
  constructor
  · simp only [visitor.gen, visitor.convertedName, visitor.compose, hlen, if_true]
  · intro e
    simp only [visitor.gen]
    cases v.convertedName U name with
    | none => simp
    | some n => simp [compose_tags U v n hT]

theorem gen_template_witness :
    (visitor.new Example.optsFormat Example.srcType).Tags = []
    ∧ (visitor.new Example.optsFormat Example.srcType).Template = some Example.templateFormat
    ∧ "ID" ≠ ""
    ∧ (visitor.new Example.optsFormat Example.srcType).gen Unicode.ascii "ID"
        = some (.ok "`foo:\"id\" bar:\"id\"`")
    ∧ ∃ n, (visitor.new Example.optsFormat Example.srcType).convertedName Unicode.ascii "ID" = some n
      ∧ (∀ buf, Example.templateFormat n = .ok buf →
          (visitor.new Example.optsFormat Example.srcType).gen Unicode.ascii "ID"
            = some (.ok ("`" ++ buf ++ "`")))
      ∧ (∀ e, Example.templateFormat n = .error e →
          (visitor.new Example.optsFormat Example.srcType).gen Unicode.ascii "ID" = some (.error e))
      ∧ ((∃ e, (visitor.new Example.optsFormat Example.srcType).gen Unicode.ascii "ID"
            = some (.error e)) ↔ ∃ e, Example.templateFormat n = .error e) :=
  ⟨rfl, rfl, by decide, by decide,
    gen_template Unicode.ascii (visitor.new Example.optsFormat Example.srcType) "ID"
      Example.templateFormat rfl rfl (by decide)⟩

theorem gen_ignores_template_witness :
    Example.startBasic.Tags ≠ []
    ∧ visitor.gen Unicode.ascii { Example.startBasic with Template := some Example.templateBroken }
        "ID" = Example.startBasic.gen Unicode.ascii "ID"
    ∧ Example.startBasic.gen Unicode.ascii "ID" = some (.ok "`json:\"id\" yaml:\"id\"`") :=
  ⟨by decide,
    (gen_ignores_template Unicode.ascii Example.startBasic "ID" (some Example.templateBroken)
      (by decide)).1,
    by decide⟩

/-- C13, the code at `TestGenMap`: with `ID` mapped to `_id` and `Name` to
`title`, the converted name of `ID` is `_id` and the walk writes the tags
`json:"_id" yaml:"_id"` and `json:"title" yaml:"title"`, but the field
descriptors it records are named `id` and `name`, the camel-case conversions. -/
theorem descriptor_name_ignores_mapping :
    (visitor.new Example.optsMap Example.srcBasic).convertedName Unicode.ascii "ID" = some "_id"
    ∧ (Walk Unicode.ascii (visitor.new Example.optsMap Example.srcBasic) Example.treeBasic).map
        (fun r => (r.1.err, r.1.structs, r.2))
      = some (none, Example.structsBasic, Example.treeMapTagged) := by
  constructor <;> decide

/-- C14, the code at the numeric types the lookup does not list: the template
of `genTS` prints `any` for `int8`, `int16`, `uint8`, `uint16`, `uintptr`,
`byte` and `rune`, and `number` for `float`, which is no Go type; it prints
`number` for `float64`, `Date` for `time.Time`, `boolean` for `bool`, `string`
for `string` and `any` for `[]byte`. -/
theorem genTS_numeric_any :
    (["int8", "int16", "uint8", "uint16", "uintptr", "byte", "rune", "float"].map
        (fun ty => tsType (utf8 ty)))
      = ["any", "any", "any", "any", "any", "any", "any", "number"]
    ∧ genTS [Example.structTypes]
      = "\nexport class bar \x7b\n\ta:any;\n\tb:any;\n\tc:number;\n\td:Date;\n\te:boolean;\n"
          ++ "\tf:string;\n\tg:any;\n\x7d\n" := by
  constructor <;> decide

/-- C16, the code at a file whose only struct passes the filter and has no
eligible field: the walk collects the descriptor of the struct, with no fields,
and leaves `changed` unset; `walkAST` then returns no visitor, so the
descriptors are lost, and `genfile` with `Typescript` set panics on the nil
visitor after calling `gen`, before any schema is emitted. -/
theorem genfile_typescript_unmodified_panics :
    (Walk Unicode.ascii (visitor.new { Example.optsBasic with Typescript := true }
        (utf8 Example.textPrivate)) Example.treePrivate).map
        (fun r => (r.1.err, r.1.changed, r.1.structs))
      = some (none, false, [{ Name := "bar", Fields := [] }])
    ∧ (walkAST Unicode.ascii { Example.optsBasic with Typescript := true } Example.treePrivate
        (utf8 Example.textPrivate)).map (fun r => (r.1.1.isSome, r.1.2))
      = some (false, none)
    ∧ genfile Unicode.ascii Example.envPrivate
        { Example.optsBasic with Typescript := true } "foo.go"
      = ([Effect.Stdout "gen file foo.go\n", Effect.Gen], none) :=
  ⟨by decide, by decide, rfl⟩


/-! ## The collected struct descriptors -/

theorem Describes_congr (U : Unicode) (v w : visitor) (h : w.src = v.src) :
    w.Describes U = v.Describes U := by
  funext f d
  simp only [visitor.Describes, h]

theorem DescribesSpec_congr (U : Unicode) (v w : visitor) (h : w.src = v.src) :
    w.DescribesSpec U = v.DescribesSpec U := by
  funext t sd
  simp only [visitor.DescribesSpec, Describes_congr U v w h]

/-- A loop that runs to its end has appended to the struct descriptor one field
descriptor for each eligible field, in order, and nothing else. -/
theorem visitFields_descriptors (U : Unicode) (fs : List Field) :
    ∀ (v : visitor) (sd : structDef) (v' : visitor) (sd' : structDef) (fs' : List Field),
      visitor.visitFields U v sd fs = some (v', sd', fs', true) →
      sd'.Name = sd.Name ∧ ∃ ds, sd'.Fields = sd.Fields ++ ds
        ∧ List.Forall₂ (v.Describes U) (fs.filter (Field.eligible U)) ds := by
  induction fs with
  | nil =>
    intro v sd v' sd' fs' h
    simp only [visitor.visitFields, Option.some.injEq, Prod.mk.injEq] at h
    obtain ⟨-, rfl, -, -⟩ := h
    exact ⟨rfl, [], by simp, by simp⟩
  | cons f fs ih =>
    intro v sd v' sd' fs' h
    cases he : f.eligible U with
    | false =>
      obtain ⟨fs1, hr, -⟩ := visitFields_skip_some U he h
      obtain ⟨h1, ds, h2, h3⟩ := ih _ _ _ _ _ hr
      exact ⟨h1, ds, h2, by simpa [List.filter, he] using h3⟩
    | true =>
      rcases visitFields_eligible_some U he h with
        ⟨e, -, -, -, -, hfin⟩ | ⟨val, cname, ftype, fs1, -, hcn, hs, hr, -⟩
      · cases hfin
      · obtain ⟨h1, ds, h2, h3⟩ := ih _ _ _ _ _ hr
        refine ⟨h1, { Name := cname, FieldType := ftype } :: ds, by simp [h2], ?_⟩
        simp only [List.filter, he]
        refine List.Forall₂.cons ⟨hcn, hs⟩ ?_
        rw [← Describes_congr U v { v with changed := true } rfl]
        exact h3

/-- A walk that ends without error has appended to the collected structs one
descriptor for each selected struct, in order, and nothing else. -/
theorem Walk_descriptors (U : Unicode) (n : File) :
    ∀ (v v' : visitor) (n' : File), Walk U v n = some (v', n') → v'.err = none →
      ∃ sds, v'.structs = v.structs ++ sds
        ∧ List.Forall₂ (v.DescribesSpec U) (n.filter v.selects) sds := by
  induction n with
  | nil =>
    intro v v' n' h _
    simp only [Walk, Option.some.injEq, Prod.mk.injEq] at h
    obtain ⟨rfl, -⟩ := h
    exact ⟨[], by simp, by simp⟩
  | cons t ts ih =>
    intro v v' n' h herr
    obtain ⟨v1, t1, ts1, hv, hw, rfl⟩ := Walk_cons_some U h
    obtain ⟨sds, h2, h3⟩ := ih v1 v' ts1 hw herr
    have h1 : v1.err = none := (Walk_finished U ts _ _ _ hw herr).1
    obtain ⟨hopt, hsrc, -, -, -⟩ := Visit_inv U hv
    have hsel : ts.filter v1.selects = ts.filter v.selects := by
      have : v1.selects = v.selects := by funext a; exact selects_congr v v1 hopt a
      rw [this]
    rw [hsel, DescribesSpec_congr U v v1 hsrc] at h3
    rcases Visit_some U hv with ⟨hc, rfl, rfl⟩ | ⟨-, hs, v2, sd, fs1, fin, hr, rfl, rfl⟩
    · have hns : v1.selects t1 = false := by
        rcases hc with hc | hc
        · rw [h1] at hc; cases hc
        · exact hc
      exact ⟨sds, h2, by simpa [List.filter, hns] using h3⟩
    · cases fin with
      | false =>
        have := visitFields_unfinished U _ _ _ _ _ _ hr
        simp only [Bool.false_eq_true, if_false] at h1
        rw [h1] at this
        cases this
      | true =>
        obtain ⟨g1, ds, g2, g3⟩ := visitFields_descriptors U _ _ _ _ _ _ hr
        have hst : v2.structs = v.structs := (visitFields_inv U _ _ _ _ _ _ _ hr).2.2.1
        simp only [if_true] at h2
        refine ⟨sd :: sds, by simp [h2, hst], ?_⟩
        simp only [List.filter, hs]
        refine List.Forall₂.cons ⟨g1, ?_⟩ h3
        simp only [List.nil_append] at g2
        rw [g2]
        exact g3

/-- C15: after a walk without error, the collected struct list has exactly one
descriptor for each struct declaration that passes the type filter, in the
order of the declarations, also for a struct with no eligible field; and the
field list of each descriptor has exactly one entry for each eligible field of
the struct, in the order of the fields: the camel-case name of the field and
the slice of the source at its type. -/
theorem walk_collects_structs (U : Unicode) (o : Options) (n : File) (raw : List UInt8)
    (v : visitor) (n' : File)
    (h : Walk U (visitor.new o raw) n = some (v, n')) (herr : v.err = none) :
    List.Forall₂ (fun t sd =>
        sd.Name = t.Name ∧
        List.Forall₂ (fun f d =>
            toCamelCase U f.name = some d.Name
              ∧ sliceString raw (f.Typ.Pos - 1) (f.Typ.End - 1) = some d.FieldType)
          (t.fields.filter (Field.eligible U)) sd.Fields)
      (n.filter (visitor.new o raw).selects) v.structs := by
  obtain ⟨sds, h1, h2⟩ := Walk_descriptors U n _ _ _ h herr
  have hs : v.structs = sds := by simpa [visitor.new] using h1
  rw [hs]
  exact h2

theorem walk_collects_structs_witness :
    Walk Unicode.ascii (visitor.new Example.optsType Example.srcType) Example.treeType
        = some (Example.visitorType, Example.treeTypeTagged)
    ∧ Example.visitorType.err = none
    ∧ List.Forall₂ (fun t sd =>
        sd.Name = t.Name ∧
        List.Forall₂ (fun f d =>
            toCamelCase Unicode.ascii f.name = some d.Name
              ∧ sliceString Example.srcType (f.Typ.Pos - 1) (f.Typ.End - 1) = some d.FieldType)
          (t.fields.filter (Field.eligible Unicode.ascii)) sd.Fields)
      (Example.treeType.filter (visitor.new Example.optsType Example.srcType).selects)
      Example.visitorType.structs :=
  ⟨rfl, rfl, walk_collects_structs Unicode.ascii Example.optsType Example.treeType
    Example.srcType Example.visitorType Example.treeTypeTagged rfl rfl⟩

/-! ## Dry run -/

theorem genfileOutput_dryrun (E : Env) (o : Options) (file : String) (v : Option visitor)
    (b : String) (h : o.DryRun = true) :
    ∀ e ∈ (genfileOutput E o file v b).1, ∃ text, e = Effect.Stdout text := by
  intro e he
  unfold genfileOutput at he
  cases hts : o.Typescript with
  | false =>
    simp only [hts, h, Bool.false_eq_true, if_false, if_true, List.nil_append,
      List.mem_cons, List.mem_singleton, List.not_mem_nil, or_false] at he
    rcases he with rfl | rfl <;> exact ⟨_, rfl⟩
  | true =>
    cases v with
    | none => simp [hts] at he
    | some w =>
      simp only [hts, h, if_true, List.cons_append, List.nil_append,
        List.mem_cons, List.mem_singleton, List.not_mem_nil, or_false] at he
      rcases he with rfl | rfl | rfl <;> exact ⟨_, rfl⟩

theorem genfile_dryrun_effects (U : Unicode) (E : Env) (o : Options) (file : String)
    (h : o.DryRun = true) :
    ∀ e ∈ (genfile U E o file).1, (∃ text, e = Effect.Stdout text) ∨ e = Effect.Gen := by
  intro e he
  unfold genfile at he
  cases hp : E.ParseFile file with
  | error err => simp only [hp, List.mem_singleton] at he; exact Or.inl ⟨_, he⟩
  | ok n =>
    cases hr : E.ReadFile file with
    | error err => simp only [hp, hr, List.mem_singleton] at he; exact Or.inl ⟨_, he⟩
    | ok c =>
      cases hw : walkAST U o n c with
      | none => simp only [hp, hr, hw, List.mem_singleton] at he; exact Or.inl ⟨_, he⟩
      | some res =>
        obtain ⟨⟨v, err⟩, n1⟩ := res
        cases err with
        | some e1 => simp only [hp, hr, hw, List.mem_singleton] at he; exact Or.inl ⟨_, he⟩
        | none =>
          cases hg : gen E v n1 with
          | error e1 =>
            simp only [hp, hr, hw, hg, List.cons_append, List.nil_append, List.mem_cons,
              List.not_mem_nil, or_false] at he
            rcases he with rfl | rfl
            · exact Or.inl ⟨_, rfl⟩
            · exact Or.inr rfl
          | ok ob =>
            cases ob with
            | none =>
              simp only [hp, hr, hw, hg, List.cons_append, List.nil_append, List.mem_cons,
                List.not_mem_nil, or_false] at he
              rcases he with rfl | rfl | rfl
              · exact Or.inl ⟨_, rfl⟩
              · exact Or.inr rfl
              · exact Or.inl ⟨_, rfl⟩
            | some b =>
              simp only [hp, hr, hw, hg, List.cons_append, List.nil_append, List.mem_cons,
                List.mem_append] at he
              rcases he with rfl | rfl | he
              · exact Or.inl ⟨_, rfl⟩
              · exact Or.inr rfl
              · exact Or.inl (genfileOutput_dryrun E o file v b h e he)

/-- C17: in dry-run mode `genfile` writes no file, whatever the configuration,
the file and the collaborators do: no call of `ioutil.WriteFile` is among its
effects, neither for the source file nor for the `.ts` file, and all it does
besides calling `gen` is to write to standard output; when the run gets to the
output, the re-serialized text `b` is written there. -/
theorem genfile_dryrun_no_write (U : Unicode) (E : Env) (o : Options) (file : String)
    (h : o.DryRun = true) :
    (∀ name data, Effect.WriteFile name data ∉ (genfile U E o file).1)
    ∧ (∀ e ∈ (genfile U E o file).1, (∃ text, e = Effect.Stdout text) ∨ e = Effect.Gen)
    ∧ (∀ n c v n' b, E.ParseFile file = .ok n → E.ReadFile file = .ok c →
        walkAST U o n c = some ((some v, none), n') → gen E (some v) n' = .ok (some b) →
        Effect.Stdout (b ++ "\n") ∈ (genfile U E o file).1) := by
  refine ⟨?_, genfile_dryrun_effects U E o file h, ?_⟩
  · intro name data hm
    rcases genfile_dryrun_effects U E o file h _ hm with ⟨text, ht⟩ | ht <;> cases ht
  · intro n c v n' b hp hr hw hg
    unfold genfile
    simp only [hp, hr, hw, hg, genfileOutput, h, if_true]
    cases o.Typescript <;> simp

theorem genfile_dryrun_no_write_witness :
    Example.optsDry.DryRun = true
    ∧ genfile Unicode.ascii Example.envBasic Example.optsDry "foo.go"
      = ([Effect.Stdout "gen file foo.go\n", Effect.Gen,
          Effect.Stdout "generating typescript...\n",
          Effect.Stdout (Example.textBasicTagged ++ "\n"),
          Effect.Stdout (genTS Example.structsBasic ++ "\n")], some none)
    ∧ ∀ name data,
        Effect.WriteFile name data
          ∉ (genfile Unicode.ascii Example.envBasic Example.optsDry "foo.go").1 :=
  ⟨rfl, rfl,
    (genfile_dryrun_no_write Unicode.ascii Example.envBasic Example.optsDry "foo.go" rfl).1⟩

/-! ## The type text of a field -/

theorem sliceString_in_bounds (s : List UInt8) (pos fin : Int)
    (h1 : 1 ≤ pos) (h2 : pos ≤ fin) (h3 : fin ≤ (s.length : Int) + 1) :
    sliceString s (pos - 1) (fin - 1) = some ((s.drop (pos - 1).toNat).take (fin - pos).toNat)
    ∧ (((s.drop (pos - 1).toNat).take (fin - pos).toNat).length : Int) = fin - pos
    ∧ ∀ i, i < (fin - pos).toNat →
        ((s.drop (pos - 1).toNat).take (fin - pos).toNat)[i]? = s[(pos - 1).toNat + i]? := by
  have hc : 0 ≤ pos - 1 ∧ pos - 1 ≤ fin - 1 ∧ fin - 1 ≤ (s.length : Int) := by omega
  have hd : (fin - 1).toNat - (pos - 1).toNat = (fin - pos).toNat := by omega
  refine ⟨?_, ?_, ?_⟩
  · simp only [sliceString, hc, and_self, if_true, hd]
  · rw [List.length_take, List.length_drop]
    omega
  · intro i hi
    rw [List.getElem?_take_of_lt hi, List.getElem?_drop]

theorem IsExported_ne_empty (U : Unicode) (name : String)
    (h : ast.IsExported U name = true) : name ≠ "" := by
  intro h0
  subst h0
  simp [ast.IsExported] at h

theorem forall₂_imp_mem {α β : Type} {R S : α → β → Prop} {l1 : List α} {l2 : List β}
    (h : List.Forall₂ R l1 l2) (hS : ∀ a ∈ l1, ∀ b, R a b → S a b) : List.Forall₂ S l1 l2 := by
  induction h with
  | nil => exact List.Forall₂.nil
  | cons hab _ ih =>
    exact List.Forall₂.cons (hS _ (List.mem_cons_self _ _) _ hab)
      (ih (fun a ha b hab' => hS a (List.mem_cons_of_mem _ ha) b hab'))

/-- The field loop does not panic when the tag composer does not panic on any
eligible field and the type positions of every eligible field are within the
source. -/
theorem visitFields_returns (U : Unicode) (fs : List Field) :
    ∀ (v : visitor) (sd : structDef),
      (∀ f ∈ fs, f.eligible U = true → v.gen U f.name ≠ none
        ∧ 1 ≤ f.Typ.Pos ∧ f.Typ.Pos ≤ f.Typ.End ∧ f.Typ.End ≤ (v.src.length : Int) + 1) →
      ∃ r, visitor.visitFields U v sd fs = some r := by
  induction fs with
  | nil => intro v sd _; exact ⟨_, rfl⟩
  | cons f fs ih =>
    intro v sd h
    have htail : ∀ (w : visitor), w.toOptions = v.toOptions → w.src = v.src →
        ∀ g ∈ fs, g.eligible U = true → w.gen U g.name ≠ none
          ∧ 1 ≤ g.Typ.Pos ∧ g.Typ.Pos ≤ g.Typ.End ∧ g.Typ.End ≤ (w.src.length : Int) + 1 := by
      intro w hw hsrc g hg he
      rw [gen_congr U v w hw, hsrc]
      exact h g (List.mem_cons_of_mem _ hg) he
    cases he : f.eligible U with
    | false =>
      obtain ⟨r, hr⟩ := ih v sd (htail v rfl rfl)
      exact ⟨_, by rw [visitFields_skip U v sd f fs he, hr]; rfl⟩
    | true =>
      obtain ⟨hg, h1, h2, h3⟩ := h f (List.mem_cons_self _ _) he
      have hx : ast.IsExported U f.name = true := by
        simp only [Field.eligible, Bool.and_eq_true] at he
        exact he.2
      obtain ⟨cname, hc⟩ := toCamelCase_isSome U f.name (IsExported_ne_empty U _ hx)
      have hs := (sliceString_in_bounds v.src f.Typ.Pos f.Typ.End h1 h2 h3).1
      rw [visitFields_eligible U v sd f fs he]
      cases hgen : v.gen U f.name with
      | none => exact absurd hgen hg
      | some g =>
        cases g with
        | error e => exact ⟨_, rfl⟩
        | ok val =>
          obtain ⟨r, hr⟩ := ih { v with changed := true }
            { sd with Fields := sd.Fields ++ [{ Name := cname, FieldType :=
                (v.src.drop (f.Typ.Pos - 1).toNat).take (f.Typ.End - f.Typ.Pos).toNat }] }
            (htail _ rfl rfl)
          simp only [hc, hs, hr]
          exact ⟨_, rfl⟩

/-- The walk does not panic when, in every selected struct, the tag composer
does not panic on any eligible field and the type positions of every eligible
field are within the source. -/
theorem Walk_returns (U : Unicode) (n : File) :
    ∀ (v : visitor),
      (∀ t ∈ n, v.selects t = true → ∀ f ∈ t.fields, f.eligible U = true →
        v.gen U f.name ≠ none
        ∧ 1 ≤ f.Typ.Pos ∧ f.Typ.Pos ≤ f.Typ.End ∧ f.Typ.End ≤ (v.src.length : Int) + 1) →
      ∃ r, Walk U v n = some r := by
  induction n with
  | nil => intro v _; exact ⟨_, rfl⟩
  | cons t ts ih =>
    intro v h
    have hvis : ∃ r, v.Visit U t = some r := by
      cases herr : v.err with
      | some e => exact ⟨_, Visit_of_err U v t (by simp [herr])⟩
      | none =>
        cases hsel : v.selects t with
        | false => exact ⟨_, Visit_of_not_selects U v t hsel⟩
        | true =>
          obtain ⟨r, hr⟩ := visitFields_returns U t.fields v { Name := t.Name, Fields := [] }
            (h t (List.mem_cons_self _ _) hsel)
          obtain ⟨v1, sd, fs1, fin⟩ := r
          rw [Visit_of_selects U v t herr hsel]
          simp only [hr]
          cases fin <;> exact ⟨_, rfl⟩
    obtain ⟨⟨v1, t1⟩, hv⟩ := hvis
    obtain ⟨hopt, hsrc, -, -, -⟩ := Visit_inv U hv
    obtain ⟨r, hr⟩ := ih v1 (by
      intro a ha hsa f hf he
      rw [gen_congr U v v1 hopt, hsrc]
      exact h a (List.mem_cons_of_mem _ ha) (by rw [← selects_congr v v1 hopt]; exact hsa) f hf he)
    exact ⟨(r.1, t1 :: r.2), by simp only [Walk, hv, hr, Option.map_some']⟩

/-- C18: when, in every struct that passes the type filter, every eligible
field has a type expression with `1 <= Pos <= End <= len(src)+1` and the tag
composer does not panic on its name, the walk returns: no slice
`src[Pos-1 : End-1]` is out of bounds.  And when the walk ends without error,
the type text recorded in the field descriptor of each eligible field is that
slice of the source: it has the length `End - Pos`, and its byte `i` is the
byte `Pos - 1 + i` of the source, so it starts at the first byte of the type
expression. -/
theorem fieldType_is_slice (U : Unicode) (o : Options) (n : File) (raw : List UInt8)
    (hgen : ∀ t ∈ n, (visitor.new o raw).selects t = true → ∀ f ∈ t.fields,
      f.eligible U = true → (visitor.new o raw).gen U f.name ≠ none)
    (hpos : ∀ t ∈ n, (visitor.new o raw).selects t = true → ∀ f ∈ t.fields,
      f.eligible U = true →
        1 ≤ f.Typ.Pos ∧ f.Typ.Pos ≤ f.Typ.End ∧ f.Typ.End ≤ (raw.length : Int) + 1) :
    ∃ v n', Walk U (visitor.new o raw) n = some (v, n')
      ∧ (v.err = none →
          List.Forall₂ (fun t sd =>
            List.Forall₂ (fun f d =>
                d.FieldType
                    = (raw.drop (f.Typ.Pos - 1).toNat).take (f.Typ.End - f.Typ.Pos).toNat
                  ∧ (d.FieldType.length : Int) = f.Typ.End - f.Typ.Pos
                  ∧ ∀ i, i < (f.Typ.End - f.Typ.Pos).toNat →
                      d.FieldType[i]? = raw[(f.Typ.Pos - 1).toNat + i]?)
              (t.fields.filter (Field.eligible U)) sd.Fields)
            (n.filter (visitor.new o raw).selects) v.structs) := by
  obtain ⟨⟨v, n'⟩, hw⟩ := Walk_returns U n (visitor.new o raw)
    (fun t ht hs f hf he => ⟨hgen t ht hs f hf he, hpos t ht hs f hf he⟩)
  refine ⟨v, n', hw, fun herr => ?_⟩
  obtain ⟨sds, h1, h2⟩ := Walk_descriptors U n _ _ _ hw herr
  have hs : v.structs = sds := by simpa [visitor.new] using h1
  rw [hs]
  refine forall₂_imp_mem h2 ?_
  intro t ht sd hd
  obtain ⟨htn, hsel⟩ := List.mem_filter.1 ht
  refine forall₂_imp_mem hd.2 ?_
  intro f hf d hfd
  obtain ⟨hft, he⟩ := List.mem_filter.1 hf
  obtain ⟨b1, b2, b3⟩ := hpos t htn hsel f hft he
  obtain ⟨s1, s2, s3⟩ := sliceString_in_bounds raw f.Typ.Pos f.Typ.End b1 b2 b3
  have hsl : sliceString raw (f.Typ.Pos - 1) (f.Typ.End - 1) = some d.FieldType := hfd.2
  rw [s1] at hsl
  have hd' : d.FieldType
      = (raw.drop (f.Typ.Pos - 1).toNat).take (f.Typ.End - f.Typ.Pos).toNat :=
    (Option.some.inj hsl).symm
  rw [hd']
  exact ⟨rfl, s2, s3⟩

theorem fieldType_is_slice_witness :
    (∀ t ∈ Example.treeBasic, Example.startBasic.selects t = true → ∀ f ∈ t.fields,
      f.eligible Unicode.ascii = true → Example.startBasic.gen Unicode.ascii f.name ≠ none)
    ∧ (∀ t ∈ Example.treeBasic, Example.startBasic.selects t = true → ∀ f ∈ t.fields,
      f.eligible Unicode.ascii = true →
        1 ≤ f.Typ.Pos ∧ f.Typ.Pos ≤ f.Typ.End
          ∧ f.Typ.End ≤ (Example.srcBasic.length : Int) + 1)
    ∧ Walk Unicode.ascii Example.startBasic Example.treeBasic
        = some (Example.visitorBasic, Example.treeBasicTagged)
    ∧ Example.visitorBasic.structs = Example.structsBasic
    ∧ ∃ v n', Walk Unicode.ascii (visitor.new Example.optsBasic Example.srcBasic)
          Example.treeBasic = some (v, n')
      ∧ (v.err = none →
          List.Forall₂ (fun t sd =>
            List.Forall₂ (fun f d =>
                d.FieldType
                    = (Example.srcBasic.drop (f.Typ.Pos - 1).toNat).take
                        (f.Typ.End - f.Typ.Pos).toNat
                  ∧ (d.FieldType.length : Int) = f.Typ.End - f.Typ.Pos
                  ∧ ∀ i, i < (f.Typ.End - f.Typ.Pos).toNat →
                      d.FieldType[i]? = Example.srcBasic[(f.Typ.Pos - 1).toNat + i]?)
              (t.fields.filter (Field.eligible Unicode.ascii)) sd.Fields)
            (Example.treeBasic.filter (visitor.new Example.optsBasic Example.srcBasic).selects)
            v.structs) :=
  ⟨by decide, by decide, rfl, rfl,
    fieldType_is_slice Unicode.ascii Example.optsBasic Example.treeBasic Example.srcBasic
      (by decide) (by decide)⟩

/-! ## What the walk leaves alone -/

theorem visitFields_keeps_shape (U : Unicode) (fs : List Field) :
    ∀ (v : visitor) (sd : structDef) (v' : visitor) (sd' : structDef) (fs' : List Field)
      (fin : Bool), visitor.visitFields U v sd fs = some (v', sd', fs', fin) →
      List.Forall₂ (fun f f' =>
        f'.Names = f.Names ∧ f'.Typ = f.Typ ∧ (f.eligible U = false → f' = f)) fs fs' := by
  induction fs with
  | nil =>
    intro v sd v' sd' fs' fin h
    simp only [visitor.visitFields, Option.some.injEq, Prod.mk.injEq] at h
    obtain ⟨-, -, rfl, -⟩ := h
    exact List.Forall₂.nil
  | cons f fs ih =>
    intro v sd v' sd' fs' fin h
    cases he : f.eligible U with
    | false =>
      obtain ⟨fs1, hr, rfl⟩ := visitFields_skip_some U he h
      exact List.Forall₂.cons ⟨rfl, rfl, fun _ => rfl⟩ (ih _ _ _ _ _ _ hr)
    | true =>
      rcases visitFields_eligible_some U he h with
        ⟨e, -, -, -, rfl, -⟩ | ⟨val, cname, ftype, fs1, -, -, -, hr, rfl⟩
      · refine List.Forall₂.cons ⟨rfl, rfl, fun h0 => ?_⟩ ?_
        · rw [he] at h0; cases h0
        · exact List.forall₂_same.2 (fun x _ => ⟨rfl, rfl, fun _ => rfl⟩)
      · refine List.Forall₂.cons ⟨rfl, rfl, fun h0 => ?_⟩ (ih _ _ _ _ _ _ hr)
        rw [he] at h0; cases h0

theorem Walk_keeps_shape (U : Unicode) (n : File) :
    ∀ (v v' : visitor) (n' : File), Walk U v n = some (v', n') →
      List.Forall₂ (fun t t' =>
        t' = t ∨ (v.selects t = true ∧ ∃ fs', t' = { t with Typ := .StructType fs' }
          ∧ List.Forall₂ (fun f f' =>
              f'.Names = f.Names ∧ f'.Typ = f.Typ ∧ (f.eligible U = false → f' = f))
            t.fields fs')) n n' := by
  induction n with
  | nil =>
    intro v v' n' h
    simp only [Walk, Option.some.injEq, Prod.mk.injEq] at h
    obtain ⟨-, rfl⟩ := h
    exact List.Forall₂.nil
  | cons t ts ih =>
    intro v v' n' h
    obtain ⟨v1, t1, ts1, hv, hw, rfl⟩ := Walk_cons_some U h
    have hopt := (Visit_inv U hv).1
    have htail := ih v1 v' ts1 hw
    refine List.Forall₂.cons ?_ (List.Forall₂.imp ?_ htail)
    · rcases Visit_some U hv with ⟨-, -, rfl⟩ | ⟨-, hs, v2, sd, fs1, fin, hr, rfl, -⟩
      · exact Or.inl rfl
      · exact Or.inr ⟨hs, fs1, rfl, visitFields_keeps_shape U _ _ _ _ _ _ _ hr⟩
    · intro a b hab
      rcases hab with hab | ⟨hs, hrest⟩
      · exact Or.inl hab
      · exact Or.inr ⟨by rw [← selects_congr v v1 hopt]; exact hs, hrest⟩

/-- C19: whatever the tree and the configuration, and whether `walkAST` returns
an error or not, the tree after the walk has the same declarations in the same
order, and each declaration either is exactly as it was, or is a struct that
passes the type filter, with the same name and the same number of fields in the
same order, each field with its names and its type as they were, and each field
that is not eligible exactly as it was, tag included. -/
theorem walk_frame (U : Unicode) (o : Options) (n : File) (raw : List UInt8)
    (r : Option visitor × Option String) (n' : File)
    (h : walkAST U o n raw = some (r, n')) :
    List.Forall₂ (fun t t' =>
        t' = t ∨ ((visitor.new o raw).selects t = true
          ∧ ∃ fs', t' = { t with Typ := .StructType fs' }
          ∧ List.Forall₂ (fun f f' =>
              f'.Names = f.Names ∧ f'.Typ = f.Typ ∧ (f.eligible U = false → f' = f))
            t.fields fs')) n n'
    ∧ n'.length = n.length := by
  obtain ⟨w, hw, -⟩ := walkAST_some U h
  have hf := Walk_keeps_shape U n _ _ _ hw
  exact ⟨hf, hf.length_eq.symm⟩

theorem walk_frame_witness :
    walkAST Unicode.ascii Example.optsFailing (Example.treeBasic ++ [Example.structNot])
        Example.srcTwo
      = some ((none, some "template: render error"),
          [{ Name := "bar", Typ := .StructType
              [{ Example.fieldID with Tag := some { Value := "`foo:\"id\"`" } },
               { Example.fieldName with Tag := some { Value := "" } },
               Example.fieldPrivate] }, Example.structNot])
    ∧ List.Forall₂ (fun t t' =>
        t' = t ∨ (Example.startFailing.selects t = true
          ∧ ∃ fs', t' = { t with Typ := .StructType fs' }
          ∧ List.Forall₂ (fun f f' =>
              f'.Names = f.Names ∧ f'.Typ = f.Typ
                ∧ (f.eligible Unicode.ascii = false → f' = f))
            t.fields fs')) (Example.treeBasic ++ [Example.structNot])
        [{ Name := "bar", Typ := .StructType
            [{ Example.fieldID with Tag := some { Value := "`foo:\"id\"`" } },
             { Example.fieldName with Tag := some { Value := "" } },
             Example.fieldPrivate] }, Example.structNot] :=
  ⟨rfl, (walk_frame Unicode.ascii Example.optsFailing (Example.treeBasic ++ [Example.structNot])
    Example.srcTwo _ _ rfl).1⟩

/-! ## Safety of `toCamelCase` -/

end Graffiti
